import Mathlib

/-!
# Verification of the rljson io storage abstraction

Shallow embedding of the core of the rljson io repository:

* the in-memory reference storage engine `IoMem`
  (`src/conformance.ts`, second document: class `IoMem`),
* the schema-evolution utilities `IoTools`
  (`io-tools.ts`, second document: class `IoTools`),
* the cascading aggregator `IoMulti`
  (`src/io-multi.ts`, second document: class `IoMulti`).

Conventions of the embedding:

* JSON values are modelled by `Val`; rows are insertion-ordered association
  lists from column key to value (JS object semantics), without the derived
  `_hash` field.
* The hashing collaborator (`@rljson/hash`) is specified as a deterministic
  content digest that is injective on content ("identical field content =>
  identical hash").  We model the digest of a row by the row content itself,
  which realises exactly that specification; the stored `_hash` fields and
  their recomputation (`hip`/`hsh`) therefore need not be carried in the
  state, they are derived values.
* JS exceptions are modelled by `Option Err` / `Except Err`.  Mutating
  operations return the heap as it is when the exception is thrown, so
  atomicity statements ("a rejected call leaves the state untouched") have
  content.
-/

/-- A JSON-compatible value (`JsonValue` of `@rljson/json`): scalar, array
or object.  Numbers are modelled as integers; no claim depends on float
semantics.  Nested arrays and objects are represented by their canonical
serialization (a string): every operation of the embedded code touches
nested values only through deep equality (`equals`) and content hashing,
both of which factor through the canonical form, so this representation is
observationally equivalent for all embedded operations. -/
inductive Val where
  | vNull : Val
  | vBool (b : Bool) : Val
  | vNum (n : Int) : Val
  | vStr (s : String) : Val
  | vArr (canonical : String) : Val
  | vObj (canonical : String) : Val
deriving DecidableEq, Repr

/-- A row: insertion-ordered mapping from column key to value, without the
derived `_hash` field. -/
abbrev Row := List (String × Val)

/-- JS property read `row[column]`: `none` models `undefined`. -/
def jsGet (r : Row) (k : String) : Option Val :=
  (r.find? (fun f => f.1 = k)).map (·.2)

/-- The content hash of a row (collaborator `@rljson/hash`, "deterministic
content hash over a JSON-like value, excluding its own hash field").  The
digest is modelled by the hashed content itself, which is the injective
specification of the collaborator. -/
def rowHash (r : Row) : Row := r.filter (fun f => f.1 ≠ "_hash")

/-- One column of a table config: key and value type. -/
structure ColumnCfg where
  key : String
  type : String
deriving DecidableEq, Repr

/-- A table config (`TableCfg` of `@rljson/rljson`): table key, content
type, ordered column list and structural flags. -/
structure TableCfg where
  key : String
  type : String
  isHead : Bool
  isRoot : Bool
  isShared : Bool
  columns : List ColumnCfg
deriving DecidableEq, Repr

/-- An error in a row reported by the table-data validator.  The source
collects these as strings; the embedding keeps them structured. -/
inductive ValError where
  | extraColumn (table : String) (column : String) : ValError
  | typeMismatch (table : String) (column : String) (expected : String) : ValError
deriving DecidableEq, Repr

/-- The errors thrown by the embedded operations.  The source throws
`Error` objects with stable messages; the embedding keeps the message
payloads structured. -/
inductive Err where
  | tableNotFound (table : String) : Err
  | columnsNotFound (table : String) (columns : List String) : Err
  | tablesDoNotExist (tables : List String) : Err
  | tableDataDoesNotMatchCfg (errors : List ValError) : Err
  | unsupportedColumnType (table : String) (column : String) (type : String) : Err
  | columnsDeleted (table : String) (columns : List String) : Err
  | columnRenamed (table : String) (before : String) (after : String) : Err
  | columnTypeChanged (table : String) (column : String) (before : String) (after : String) : Err
  | jsTypeError : Err
  | noReadableIo : Err
  | noDumpableIo : Err
deriving DecidableEq, Repr

instance exceptDecEq {ε α : Type} [DecidableEq ε] [DecidableEq α] :
    DecidableEq (Except ε α) := fun a b =>
  match a, b with
  | .error e1, .error e2 =>
      if h : e1 = e2 then .isTrue (by rw [h]) else .isFalse (by simp [h])
  | .ok v1, .ok v2 =>
      if h : v1 = v2 then .isTrue (by rw [h]) else .isFalse (by simp [h])
  | .error _, .ok _ => .isFalse (by simp)
  | .ok _, .error _ => .isFalse (by simp)

/-- The supported column value types (`jsonValueTypes` of `@rljson/json`,
as used by the first-document `IoTools.throwWhenTableIsNotCompatible` and
witnessed by the conformance tests). -/
def jsonValueTypes : List String :=
  ["string", "number", "boolean", "json", "jsonArray", "jsonValue"]

/-- Modelled from the spec: whether a value fits a declared column type.
Part of `validateRljsonAgainstTableCfg` of the external collaborator
`@rljson/rljson`; the conformance tests show that `null` values are
accepted for every declared column type. -/
def typeMatches (t : String) (v : Val) : Bool :=
  match v with
  | .vNull => true
  | .vBool _ => t = "boolean" || t = "jsonValue"
  | .vNum _ => t = "number" || t = "jsonValue"
  | .vStr _ => t = "string" || t = "jsonValue"
  | .vArr _ => t = "jsonArray" || t = "jsonValue"
  | .vObj _ => t = "json" || t = "jsonValue"

/-- Modelled from the spec: `validateRljsonAgainstTableCfg` of the external
collaborator `@rljson/rljson`.  It reports, for one row, every offending
column (columns outside the config, and value-type mismatches), not only
the first; per the conformance tests, absent columns and `null` values are
accepted. -/
def validateRowAgainstCfg (table : String) (cfg : TableCfg) (row : Row) : List ValError :=
  let colKeys := cfg.columns.map (·.key)
  let extra := (row.filter (fun f => f.1 ≠ "_hash" ∧ ¬ colKeys.contains f.1)).map
    (fun f => ValError.extraColumn table f.1)
  let mismatch := (row.filter (fun f =>
      match cfg.columns.find? (fun c => c.key = f.1) with
      | some c => ¬ typeMatches c.type f.2
      | none => False)).map
    (fun f => ValError.typeMismatch table f.1
      (((cfg.columns.find? (fun c => c.key = f.1)).map (·.type)).getD ""))
  extra ++ mismatch

/-- Validation errors of all rows of one table, collected (not cut off at
the first failing row). -/
def validateTableAgainstCfg (table : String) (cfg : TableCfg) (rows : List Row) :
    List ValError :=
  rows.flatMap (validateRowAgainstCfg table cfg)

/-- One table of the in-memory store (`TableType`): its rows and its
`_tableCfg` pointer.  The pointer stores the config hash in the source; a
config hash is modelled by the config content (content identity). -/
structure Table where
  data : List Row
  tableCfg : TableCfg
deriving DecidableEq, Repr

/-- The state of the in-memory reference engine `IoMem`: `_mem.tableCfgs._data`
(the append-only config log) and the remaining tables of `_mem` in insertion
order.  The aggregate hashes (`_hash` of each table and of the database) are
recomputed from content after every mutation in the source and are therefore
derived values in the embedding, not state. -/
structure Db where
  tableCfgsLog : List TableCfg
  tables : List (String × Table)
deriving DecidableEq, Repr

/-- JS lookup `this._mem[table]` for a data table. -/
def Db.tableOrNull (db : Db) (k : String) : Option Table :=
  (db.tables.find? (fun t => t.1 = k)).map (·.2)

/-- `IoMem.tableExists`.  (The reserved `tableCfgs` entry of `_mem` lives in
the dedicated `tableCfgsLog` field of the embedding; no claim reads or
writes it as a data table.) -/
def IoMem.tableExists (db : Db) (k : String) : Bool :=
  (db.tableOrNull k).isSome

/-- Insert into a list sorted by the boolean comparison `le` (used to model
the stable JS `Array.prototype.sort`; stability is obtained by sorting with
a total strict-or-equal order that includes the original index). -/
def insertLe (le : α → α → Bool) (x : α) : List α → List α
  | [] => [x]
  | y :: ys => if le x y then x :: y :: ys else y :: insertLe le x ys

/-- Insertion sort by the boolean comparison `le`. -/
def sortLe (le : α → α → Bool) (l : List α) : List α :=
  l.foldr (insertLe le) []

/-- Strict character comparison by code point. -/
def charLtB (a b : Char) : Bool := a.val < b.val

/-- Lexicographic comparison of character lists (the JS `<` on strings,
by code units). -/
def charListLt : List Char → List Char → Bool
  | [], [] => false
  | [], _ :: _ => true
  | _ :: _, [] => false
  | a :: as, b :: bs =>
      if charLtB a b then true
      else if charLtB b a then false
      else charListLt as bs

/-- String comparison used for the JS comparator returning -1/0/1 on keys. -/
def strLe (a b : String) : Bool := a = b || charListLt a.data b.data

/-- One step of the collapse loop of `IoTools.tableCfgs`: JS record insert
`newestVersion[table.key] = table`, keeping the position of an existing key
and appending a new key, guarded by the greater-column-count test. -/
def updateNewest (t : TableCfg) : List TableCfg → List TableCfg
  | [] => [t]
  | e :: es =>
      if e.key = t.key then
        (if e.columns.length < t.columns.length then t :: es else e :: es)
      else e :: updateNewest t es

/-- The collapse loop of `IoTools.tableCfgs`: traverse the config log from
its end to its start, keeping per key the entry with the most columns. -/
def collapseNewest (log : List TableCfg) : List TableCfg :=
  log.reverse.foldl (fun acc t => updateNewest t acc) []

/-- `IoTools.tableCfgs` (io-tools.ts, second document): dump the config log,
collapse it to one current entry per key (greatest column count wins) and
sort the result by key. -/
def IoTools.tableCfgs (db : Db) : List TableCfg :=
  sortLe (fun a b => strLe a.key b.key) (collapseNewest db.tableCfgsLog)

/-- `IoTools.tableCfgOrNull`. -/
def IoTools.tableCfgOrNull (db : Db) (table : String) : Option TableCfg :=
  (IoTools.tableCfgs db).find? (fun e => e.key = table)

/-- `IoTools.throwWhenColumnDoesNotExist`: resolves the collapsed config of
the table (throwing `tableNotFound` when there is none) and reports all
`where` columns that are not configured. -/
def IoTools.throwWhenColumnDoesNotExist (db : Db) (table : String)
    (columns : List String) : Except Err Unit :=
  match IoTools.tableCfgOrNull db table with
  | none => .error (.tableNotFound table)
  | some cfg =>
      let columnKeys := cfg.columns.map (·.key)
      let missingColumns := columns.filter (fun c => ¬ columnKeys.contains c)
      if missingColumns = [] then .ok ()
      else .error (.columnsNotFound table missingColumns)

/-- Modelled from the spec: `throwOnInvalidTableCfg` of the external
collaborator `@rljson/rljson` — "Reject (`SchemaIncompatible`) if any
column's value-type is outside the supported set"; the first-document
`IoTools` variant checks exactly `jsonValueTypes.includes(column.type)`. -/
def throwOnInvalidTableCfg (update : TableCfg) : Except Err Unit :=
  match update.columns.find? (fun c => ¬ jsonValueTypes.contains c.type) with
  | some c => .error (.unsupportedColumnType update.key c.key c.type)
  | none => .ok ()

/-- The positional column-key loop of `throwWhenTableIsNotCompatible`.
Indexing `update.columns[i]` beyond the update's length is the JS
`undefined`, and reading `.key` of it throws a `TypeError`. -/
def checkColumnKeys (table : String) :
    List ColumnCfg → List ColumnCfg → Except Err Unit
  | [], _ => .ok ()
  | _ :: _, [] => .error .jsTypeError
  | e :: es, u :: us =>
      if e.key ≠ u.key then .error (.columnRenamed table e.key u.key)
      else checkColumnKeys table es us

/-- The positional column-type loop of `throwWhenTableIsNotCompatible`. -/
def checkColumnTypes (table : String) :
    List ColumnCfg → List ColumnCfg → Except Err Unit
  | [], _ => .ok ()
  | _ :: _, [] => .error .jsTypeError
  | e :: es, u :: us =>
      if e.type ≠ u.type then .error (.columnTypeChanged table e.key e.type u.type)
      else checkColumnTypes table es us

/-- The deleted-columns computation of `throwWhenTableIsNotCompatible`:
when the update has fewer columns than the existing config, every existing
column key that does not occur in the update. -/
def deletedColumnKeys (existing update : TableCfg) : List String :=
  if update.columns.length < existing.columns.length then
    (existing.columns.map (·.key)).filter
      (fun k => ¬ update.columns.any (fun c => c.key = k))
  else []

/-- `IoTools.throwWhenTableIsNotCompatible` (io-tools.ts, second document):
unsupported-type check, then — when a config for the key exists — the
deleted-columns check, the positional key check and the positional type
check, in this order.  Pure checks: nothing is mutated. -/
def IoTools.throwWhenTableIsNotCompatible (db : Db) (update : TableCfg) :
    Except Err Unit :=
  match throwOnInvalidTableCfg update with
  | .error e => .error e
  | .ok _ =>
    match IoTools.tableCfgOrNull db update.key with
    | none => .ok ()
    | some existing =>
        match deletedColumnKeys existing update with
        | _ :: _ =>
            .error (.columnsDeleted update.key (deletedColumnKeys existing update))
        | [] =>
          match checkColumnKeys update.key existing.columns update.columns with
          | .error e => .error e
          | .ok _ => checkColumnTypes update.key existing.columns update.columns

/-- `IoMem._createTable`: push the new config onto the log, then create an
empty table pointing at it unless the table already exists physically
(JS `this._mem[tableKey] ??= ...`).  The hash updates of the source are
derived values in the embedding. -/
def IoMem.createTable (db : Db) (newConfig : TableCfg) : Db :=
  let db1 : Db := { db with tableCfgsLog := db.tableCfgsLog ++ [newConfig] }
  if (db1.tables.find? (fun t => t.1 = newConfig.key)).isSome then db1
  else
    { db1 with
      tables := db1.tables ++ [(newConfig.key, { data := [], tableCfg := newConfig })] }

/-- Repoint the `_tableCfg` reference of the table with the given key. -/
def setTableCfgPtr (key : String) (cfg : TableCfg) :
    List (String × Table) → List (String × Table)
  | [] => []
  | (k, t) :: ts =>
      if k = key then (k, { t with tableCfg := cfg }) :: ts
      else (k, t) :: setTableCfgPtr key cfg ts

/-- `IoMem._extendTable`: a same-length update is a no-op; otherwise the new
config version is appended to the log and the table's config reference is
repointed. -/
def IoMem.extendTable (db : Db) (existingConfig newConfig : TableCfg) : Db :=
  if existingConfig.columns.length = newConfig.columns.length then db
  else
    { db with
      tableCfgsLog := db.tableCfgsLog ++ [newConfig]
      tables := setTableCfgPtr newConfig.key newConfig db.tables }

/-- `IoMem._createOrExtendTable`: compatibility check first (pure), then
create or extend.  The returned pair carries the heap as it is when an
exception leaves the method, so rejected calls demonstrably leave the
state untouched. -/
def IoMem.createOrExtendTable (db : Db) (tableCfg : TableCfg) : Db × Option Err :=
  match IoTools.throwWhenTableIsNotCompatible db tableCfg with
  | .error e => (db, some e)
  | .ok _ =>
    match IoTools.tableCfgOrNull db tableCfg.key with
    | none => (IoMem.createTable db tableCfg, none)
    | some existingConfig => (IoMem.extendTable db existingConfig tableCfg, none)

/-- `IoMem._removeNullValues` applied to one row: a field whose value is
`null` is deleted. -/
def stripNullFields (r : Row) : Row := r.filter (fun f => f.2 ≠ Val.vNull)

/-- The table data carried by a `write` request: table key to row list
(`_type` and the incoming `_hash` fields play no role in any claim; hashes
are derived values of the embedding). -/
abbrev WriteData := List (String × List Row)

/-- `IoMem._removeNullValues` over a whole request. -/
def removeNullValues (data : WriteData) : WriteData :=
  data.map (fun t => (t.1, t.2.map stripNullFields))

/-- Whether a key starts with an underscore (`key.startsWith('_')`). -/
def startsWithUnderscore (k : String) : Bool := k.data.head? = some '_'

/-- The table keys of a request (`iterateTables` and the write loop skip
keys that start with an underscore). -/
def dataTableKeys (data : WriteData) : List String :=
  (data.map (·.1)).filter (fun k => ¬ startsWithUnderscore k)

/-- Rows of one table of a request. -/
def rowsOfTable (data : WriteData) (k : String) : List Row :=
  ((data.find? (fun t => t.1 = k)).map (·.2)).getD []

/-- `IoTools.throwWhenTablesDoNotExist`: all missing table keys are
collected and named at once. -/
def IoTools.throwWhenTablesDoNotExist (db : Db) (data : WriteData) :
    Except Err Unit :=
  let missingTables := (dataTableKeys data).filter (fun k => ¬ IoMem.tableExists db k)
  if missingTables = [] then .ok ()
  else .error (.tablesDoNotExist missingTables)

/-- Validation errors of a request, collected across every table and every
row (the per-table config is resolved as in `IoTools.tableCfg`, which
throws `tableNotFound` when the config log has no entry for the key). -/
def collectValidationErrors (db : Db) (data : WriteData) :
    List String → Except Err (List ValError)
  | [] => .ok []
  | k :: ks =>
      match IoTools.tableCfgOrNull db k with
      | none => .error (.tableNotFound k)
      | some cfg =>
          match collectValidationErrors db data ks with
          | .error e => .error e
          | .ok es => .ok (validateTableAgainstCfg k cfg (rowsOfTable data k) ++ es)

/-- `IoTools.throwWhenTableDataDoesNotMatchCfg`: throws one error carrying
the full collected list when any row of any table fails validation. -/
def IoTools.throwWhenTableDataDoesNotMatchCfg (db : Db) (data : WriteData) :
    Except Err Unit :=
  match collectValidationErrors db data (dataTableKeys data) with
  | .error e => .error e
  | .ok errors =>
      if errors = [] then .ok ()
      else .error (.tableDataDoesNotMatchCfg errors)

/-- The dedup-merge loop of `IoMem._write` for one table: a row is appended
only if no existing row shares its content hash. -/
def mergeRows (old : List Row) : List Row → List Row
  | [] => old
  | item :: items =>
      if old.any (fun i => rowHash i = rowHash item) then mergeRows old items
      else mergeRows (old ++ [item]) items

/-- Merge incoming rows into the table with the given key. -/
def mergeTableRows (k : String) (rows : List Row) :
    List (String × Table) → List (String × Table)
  | [] => []
  | (k0, t) :: ts =>
      if k0 = k then (k0, { t with data := mergeRows t.data rows }) :: ts
      else (k0, t) :: mergeTableRows k rows ts

/-- The write loop of `IoMem._write` over all request tables (skipping
underscore keys). -/
def mergeAll (tables : List (String × Table)) : WriteData → List (String × Table)
  | [] => tables
  | (k, rows) :: rest =>
      if startsWithUnderscore k then mergeAll tables rest
      else mergeAll (mergeTableRows k rows tables) rest

/-- `IoMem._write`: hash the incoming data, strip `null`-valued fields, and
rehash (hashes are derived values here, so only the stripping remains);
check that every named table exists (all missing keys at once) and that
every row of every table matches its config (full error list); only then
merge each table's rows by content hash.  The pair carries the heap as of
the moment an exception leaves the method: both throws happen before any
mutation. -/
def IoMem.write (db : Db) (data : WriteData) : Db × Option Err :=
  let addedData := removeNullValues data
  match IoTools.throwWhenTablesDoNotExist db data with
  | .error e => (db, some e)
  | .ok _ =>
    match IoTools.throwWhenTableDataDoesNotMatchCfg db data with
    | .error e => (db, some e)
    | .ok _ => ({ db with tables := mergeAll db.tables addedData }, none)

/-- `equals(a, b)` of `@rljson/json` (deep equality) applied to a possibly
`undefined` row value. -/
def equalsJs (a : Option Val) (b : Val) : Bool :=
  match a with
  | none => false
  | some v => v = b

/-- The row filter of `IoMem._readRows`, literally: iterate the `where`
entries in insertion order; `if (b === null && a === undefined) return
true;` accepts the row immediately; `if (!equals(a, b)) return false;`
rejects it; a row surviving the loop is accepted. -/
def rowMatchesWhere (whereClause : List (String × Val)) (row : Row) : Bool :=
  match whereClause with
  | [] => true
  | (column, b) :: rest =>
      let a := jsGet row column
      if b = Val.vNull ∧ a = none then true
      else if ¬ equalsJs a b then false
      else rowMatchesWhere rest row

/-- `IoMem._readRows`: the table must exist, all `where` columns must be
configured, and the table's rows are filtered with `rowMatchesWhere`.
No state is mutated. -/
def IoMem.readRows (db : Db) (table : String) (whereClause : List (String × Val)) :
    Except Err (List Row) :=
  if ¬ IoMem.tableExists db table then .error (.tableNotFound table)
  else
    match IoTools.throwWhenColumnDoesNotExist db table (whereClause.map (·.1)) with
    | .error e => .error e
    | .ok _ =>
        match db.tableOrNull table with
        | none => .error (.tableNotFound table)
        | some t => .ok (t.data.filter (rowMatchesWhere whereClause))

/-- Modelled from the spec: `rawTableCfgs()` of the reference backend — "the
full, uncollapsed config log" (§6).  No document of the corpus contains the
`IoMem` implementation. -/
def IoMem.rawTableCfgs (db : Db) : List TableCfg := db.tableCfgsLog

/-- One child of the aggregator (`IoMultiIo`): its engine (instantiated with
the reference backend state), its priority and its capability flags. -/
structure IoMultiIo where
  io : Db
  priority : Int
  read : Bool
  write : Bool
  dump : Bool
deriving DecidableEq, Repr

/-- The comparison realising the stable JS sort by
`(a, b) => a.priority - b.priority` on index-tagged children: order by
priority, ties by original position. -/
def ioLe (a b : Nat × IoMultiIo) : Bool :=
  a.2.priority < b.2.priority || (a.2.priority = b.2.priority && a.1 ≤ b.1)

/-- `get readables`: the read-capable children sorted by ascending priority
(stable), tagged with their index in the child list. -/
def readables (ios : List IoMultiIo) : List (Nat × IoMultiIo) :=
  sortLe ioLe (ios.enum.filter (fun p => p.2.read))

/-- `get writables`: the write-capable children sorted by ascending
priority (stable), tagged with their index in the child list. -/
def writables (ios : List IoMultiIo) : List (Nat × IoMultiIo) :=
  sortLe ioLe (ios.enum.filter (fun p => p.2.write))

/-- `get dumpables`: the dump-capable children sorted by ascending priority
(stable), tagged with their index in the child list. -/
def dumpables (ios : List IoMultiIo) : List (Nat × IoMultiIo) :=
  sortLe ioLe (ios.enum.filter (fun p => p.2.dump))

/-- The accumulator of the cascading read: the `tableExistsAny` flag, the
JS `Map` from row hash to row (insertion-ordered), and the collected child
errors. -/
structure CascadeAcc where
  tableExistsAny : Bool
  rows : List (Row × Row)
  errors : List Err
deriving DecidableEq, Repr

/-- JS `Map.prototype.set`: an existing key keeps its position and gets the
new value; a new key is appended. -/
def jsMapSet (m : List (Row × Row)) (k v : Row) : List (Row × Row) :=
  match m with
  | [] => [(k, v)]
  | (k0, v0) :: rest =>
      if k0 = k then (k0, v) :: rest else (k0, v0) :: jsMapSet rest k v

/-- One iteration of the cascading-read loop of `IoMulti.readRows`: try the
child's `readRows`; on an exception record the error and continue; on
success mark the table as found and union the returned rows into the
accumulator keyed by row hash. -/
def cascadeStep (table : String) (whereClause : List (String × Val))
    (acc : CascadeAcc) (child : IoMultiIo) : CascadeAcc :=
  match IoMem.readRows child.io table whereClause with
  | .error e => { acc with errors := acc.errors ++ [e] }
  | .ok tableRows =>
      { tableExistsAny := true
        rows := tableRows.foldl (fun m r => jsMapSet m (rowHash r) r) acc.rows
        errors := acc.errors }

/-- The full cascading-read loop over the readable children in ascending
priority order. -/
def cascade (ios : List IoMultiIo) (table : String)
    (whereClause : List (String × Val)) : CascadeAcc :=
  (readables ios).foldl (fun acc p => cascadeStep table whereClause acc p.2)
    { tableExistsAny := false, rows := [], errors := [] }

/-- The error selection of `IoMulti.readRows` when no child had the table:
prefer any collected error more specific than the generic
`Table "<table>" not found`. -/
def pickCascadeError (table : String) (errors : List Err) : Err :=
  match errors with
  | [] => .tableNotFound table
  | e0 :: _ =>
      match errors.filter (fun err => err ≠ Err.tableNotFound table) with
      | p :: _ => p
      | [] => e0

/-- The hot-swap cache write-back of `IoMulti.readRows`: write the merged
rows to every writable child; a child whose write throws keeps the heap its
write left behind (`catch { continue }`). -/
def writeBack (ios : List IoMultiIo) (data : WriteData) : List IoMultiIo :=
  (writables ios).foldl
    (fun cur p =>
      match cur.get? p.1 with
      | none => cur
      | some c => cur.set p.1 { c with io := (IoMem.write c.io data).1 })
    ios

/-- `IoMulti.readRows` (io-multi.ts, second document, lines 582-652):
cascade over all readable children in ascending priority order, collecting
errors and unioning rows by content hash; when no child had the table,
throw the most specific collected error; otherwise write the merged rows
back to every writable child (failures swallowed) and return the merged
rows together with the resulting child states. -/
def IoMulti.readRows (ios : List IoMultiIo) (table : String)
    (whereClause : List (String × Val)) :
    Except Err (List Row × List IoMultiIo) :=
  if readables ios = [] then .error .noReadableIo
  else
    let acc := cascade ios table whereClause
    if ¬ acc.tableExistsAny then .error (pickCascadeError table acc.errors)
    else
      let mergedRows := acc.rows.map (·.2)
      .ok (mergedRows, writeBack ios [(table, mergedRows)])

/-- The `Map` insertion loop of `IoMulti.rawTableCfgs`: a config is added
only when no entry with the same `key` is present yet (JS
`if (!rawTableCfgs.has(tableCfg.key)) rawTableCfgs.set(...)`). -/
def dedupByKeyFirst (acc : List TableCfg) : List TableCfg → List TableCfg
  | [] => acc
  | cfg :: rest =>
      if acc.any (fun e => e.key = cfg.key) then dedupByKeyFirst acc rest
      else dedupByKeyFirst (acc ++ [cfg]) rest

/-- The raw configs of all readable children, concatenated in ascending
priority order. -/
def allRawCfgs (ios : List IoMultiIo) : List TableCfg :=
  ((readables ios).map (fun p => IoMem.rawTableCfgs p.2.io)).flatten

/-- `IoMulti.rawTableCfgs` (io-multi.ts, second document, lines 538-557):
query every readable child in ascending priority order and collect the
returned configs into a JS `Map` keyed by `tableCfg.key`, keeping the
first-seen entry per key. -/
def IoMulti.rawTableCfgs (ios : List IoMultiIo) : Except Err (List TableCfg) :=
  if readables ios = [] then .error .noReadableIo
  else .ok (dedupByKeyFirst [] (allRawCfgs ios))

/-- A dump snapshot (`Rljson`): table key to rows. -/
abbrev Dump := List (String × List Row)

/-- `IoMem.dump`: the engine's tables as a snapshot (a deep copy in the
source; copies are identities in the pure embedding). -/
def IoMem.dump (db : Db) : Dump := db.tables.map (fun t => (t.1, t.2.data))

/-- Modelled from the spec: `merge(...dumps)` of the external collaborator
`@rljson/json` as used by `IoMulti.dump` — "merge is a per-table union of
rows by hash (content-hash identity makes this union commutative and
associative regardless of visiting order)" (§4.3).  The merged table is the
union, as a set keyed by content hash, of the rows of that table across
all snapshots. -/
def mergeDumps (dumps : List Dump) : String → Finset Row :=
  fun table =>
    (dumps.map (fun d => ((rowsOfTable d table).map rowHash).toFinset)).foldr
      (fun s acc => s ∪ acc) ∅

/-- `IoMulti.dump` (io-multi.ts, second document, lines 431-442): dump
every dump-capable child in ascending priority order and merge the
snapshots. -/
def IoMulti.dump (ios : List IoMultiIo) : Except Err (String → Finset Row) :=
  if dumpables ios = [] then .error .noDumpableIo
  else .ok (mergeDumps ((dumpables ios).map (fun p => IoMem.dump p.2.io)))

/-- The `where`-entry semantics asserted by the spec for `readRows`: a
non-null expected value must deep-equal the row's value; a `null` expected
value matches only a row missing the column entirely.  (Written from the
spec's words, for comparison with the embedded `rowMatchesWhere`.) -/
def whereEntryMatchesSpec (row : Row) (e : String × Val) : Bool :=
  match e.2 with
  | Val.vNull => jsGet row e.1 = none
  | b => equalsJs (jsGet row e.1) b

/-- The row filter asserted by the spec: every `where` entry must match.
(Written from the spec's words, for comparison with `rowMatchesWhere`.) -/
def rowMatchesWhereSpec (whereClause : List (String × Val)) (row : Row) : Bool :=
  whereClause.all (whereEntryMatchesSpec row)

/-- First-seen-per-key selection, written from the amended claim's words:
keep each config whose `key` has not appeared earlier in the list. -/
def firstSeenPerKey : List TableCfg → List TableCfg
  | [] => []
  | c :: rest => c :: firstSeenPerKey (rest.filter (fun e => e.key ≠ c.key))
termination_by l => l.length
decreasing_by
  exact Nat.lt_succ_of_le (List.length_filter_le _ _)

/-- Turn off a child's write capability (used to state that the hot-swap
write-back can never influence the value returned to the reader). -/
def disableWrite (c : IoMultiIo) : IoMultiIo :=
  { c with write := false }

/-- An example table config with a string column `a` and a number column
`b`. -/
def exCfg : TableCfg :=
  { key := "t", type := "components", isHead := true, isRoot := true,
    isShared := false,
    columns := [{ key := "a", type := "string" }, { key := "b", type := "number" }] }

/-- A row whose `b` column is 2 and whose `a` column is absent. -/
def exRowB2 : Row := [("b", Val.vNum 2)]

/-- A row whose `a` column is the string `x`. -/
def exRowAx : Row := [("a", Val.vStr "x")]

/-- An engine whose table `t` holds only `exRowB2`. -/
def dbNoMatch : Db :=
  { tableCfgsLog := [exCfg],
    tables := [("t", { data := [exRowB2], tableCfg := exCfg })] }

/-- An engine whose table `t` holds only `exRowAx`. -/
def dbMatch : Db :=
  { tableCfgsLog := [exCfg],
    tables := [("t", { data := [exRowAx], tableCfg := exCfg })] }

/-- C3 failing input: a `where` clause whose first entry expects `a` to be
`null` (absent) and whose second entry expects `b = 1`. -/
def c3Where : List (String × Val) := [("a", Val.vNull), ("b", Val.vNum 1)]

/-- Two versions of one table key for the C9 counterexample: distinct
content, hence distinct content hashes. -/
def c9CfgV1 : TableCfg :=
  { key := "t0", type := "components", isHead := false, isRoot := false,
    isShared := true, columns := [{ key := "a", type := "string" }] }

/-- The second, extended version of `c9CfgV1`. -/
def c9CfgV2 : TableCfg :=
  { key := "t0", type := "components", isHead := false, isRoot := false,
    isShared := true,
    columns := [{ key := "a", type := "string" }, { key := "b", type := "number" }] }

/-- A readable child whose raw config log holds both versions of `t0`. -/
def c9Child : IoMultiIo :=
  { io := { tableCfgsLog := [c9CfgV1, c9CfgV2], tables := [] },
    priority := 1, read := true, write := false, dump := false }

/-- Higher-priority C1 child: has table `t`, zero rows matching
`a = "x"`. -/
def c1ChildA : IoMultiIo :=
  { io := dbNoMatch, priority := 1, read := true, write := false, dump := false }

/-- Lower-priority C1 child: has table `t` with one row matching
`a = "x"`. -/
def c1ChildB : IoMultiIo :=
  { io := dbMatch, priority := 2, read := true, write := false, dump := false }

/-- The config of the two-tier C2 scenario's `items` table. -/
def itemsCfg : TableCfg :=
  { key := "items", type := "components", isHead := true, isRoot := true,
    isShared := false, columns := [{ key := "a", type := "string" }] }

/-- The row held only by the remote child in the C2 scenario. -/
def itemsRow : Row := [("a", Val.vStr "x")]

/-- The cache tier: an empty `items` table. -/
def cacheDb : Db :=
  { tableCfgsLog := [itemsCfg],
    tables := [("items", { data := [], tableCfg := itemsCfg })] }

/-- A writable child without the `items` table: its write-back throws and
must be swallowed. -/
def brokenDb : Db := { tableCfgsLog := [], tables := [] }

/-- The remote tier: `items` holds one row. -/
def remoteDb : Db :=
  { tableCfgsLog := [itemsCfg],
    tables := [("items", { data := [itemsRow], tableCfg := itemsCfg })] }

/-- The C2 scenario children: cache (priority 1, read and write), a broken
writable (priority 2), and the remote (priority 3, read and dump). -/
def c2Ios : List IoMultiIo :=
  [ { io := cacheDb, priority := 1, read := true, write := true, dump := false },
    { io := brokenDb, priority := 2, read := false, write := true, dump := false },
    { io := remoteDb, priority := 3, read := true, write := false, dump := true } ]

/-- First schema version for the C4 witness: one string column. -/
def c4CfgV1 : TableCfg :=
  { key := "tbl", type := "components", isHead := true, isRoot := true,
    isShared := false, columns := [{ key := "a", type := "string" }] }

/-- Compatible extension of `c4CfgV1` by a number column. -/
def c4CfgV2 : TableCfg :=
  { key := "tbl", type := "components", isHead := true, isRoot := true,
    isShared := false,
    columns := [{ key := "a", type := "string" }, { key := "b", type := "number" }] }

/-- An update that renames column `a` to `z` (must be rejected). -/
def c4CfgRenamed : TableCfg :=
  { key := "tbl", type := "components", isHead := true, isRoot := true,
    isShared := false, columns := [{ key := "z", type := "string" }] }

/-- An update with an unsupported column type (must be rejected). -/
def c4CfgBadType : TableCfg :=
  { key := "tbl", type := "components", isHead := true, isRoot := true,
    isShared := false,
    columns := [{ key := "a", type := "string" }, { key := "x", type := "unknown" }] }

/-- An engine holding table `tbl` at schema version `c4CfgV1`. -/
def c4Db : Db :=
  { tableCfgsLog := [c4CfgV1],
    tables := [("tbl", { data := [], tableCfg := c4CfgV1 })] }

/-- C5 witness data: one row with an extra column `zzz`, a second row whose
`a` value is a number instead of a string — two errors across two rows. -/
def c5BadData : WriteData :=
  [("t", [[("a", Val.vStr "x"), ("zzz", Val.vNum 1)], [("a", Val.vNum 5)]])]

/-- C10 witness data: the written row carries an explicit null field `b`. -/
def c10Data : WriteData :=
  [("t", [[("a", Val.vStr "x"), ("b", Val.vNull)]])]

/-- A config log holding two versions of `t0` and one other key, for the
C8 witness. -/
def c8Db : Db :=
  { tableCfgsLog :=
      [c9CfgV1, { key := "zz", type := "components", isHead := false,
                  isRoot := false, isShared := true,
                  columns := [{ key := "c", type := "string" }] }, c9CfgV2],
    tables := [] }

/-- The engine state after merging `exRowB2` into `dbMatch` (used by the
idempotent-write witness). -/
def dbW6 : Db :=
  { tableCfgsLog := [exCfg],
    tables := [("t", { data := [exRowAx, exRowB2], tableCfg := exCfg })] }

/-- Per-key growth between table lists: absent keys stay absent, and every
row of a present table remains present. -/
def dataSup (ts ts2 : List (String × Table)) : Prop :=
  (∀ k, ts.find? (fun e => e.1 = k) = none →
      ts2.find? (fun e => e.1 = k) = none)
  ∧ ∀ k t, ts.find? (fun e => e.1 = k) = some t →
      ∃ t2, ts2.find? (fun e => e.1 = k) = some t2
        ∧ ∀ i ∈ t.2.data, i ∈ t2.2.data

/-- Every row of `rows` occurs, by content hash, in the table stored at `k`
(vacuously true when `k` is absent). -/
def rowsCovered (ts : List (String × Table)) (k : String) (rows : List Row) : Prop :=
  ∀ t, ts.find? (fun e => e.1 = k) = some t →
    ∀ r ∈ rows, ∃ i ∈ t.2.data, rowHash i = rowHash r

/-- `IoMem.tableCfgs` (conformance.ts, second document, lines 123-143):
walk the config log from its last entry to its first, keep the first
encountered entry per key (`if (!existing)`) in a JS record — so the LAST
log entry of each key wins, with no column-count comparison — and return
`Object.values(newestVersion).reverse()`: the record's insertion order is
the backward-scan order, so the reversed value list orders keys by the
position of their last log occurrence. -/
def IoMem.tableCfgs (db : Db) : List TableCfg :=
  (dedupByKeyFirst [] db.tableCfgsLog.reverse).reverse

/-- A config log whose later `t0` entry has FEWER columns than the earlier
one (non-monotonic per-key growth). -/
def c8MemDb : Db :=
  { tableCfgsLog := [c9CfgV2, c9CfgV1], tables := [] }

/-- The cache tier after the warm-up: `items` now holds the remote row. -/
def cacheDbWarm : Db :=
  { tableCfgsLog := [itemsCfg],
    tables := [("items", { data := [itemsRow], tableCfg := itemsCfg })] }

/-- The expected child states after the first `readRows` of the C2
scenario: the cache was back-filled, the broken writable's failed write
left it unchanged (swallowed), and the remote is untouched. -/
def c2After : List IoMultiIo :=
  [ { io := cacheDbWarm, priority := 1, read := true, write := true, dump := false },
    { io := brokenDb, priority := 2, read := false, write := true, dump := false },
    { io := remoteDb, priority := 3, read := true, write := false, dump := true } ]

/-! ## Lemmas and theorems -/

theorem insertLe_perm (le : α → α → Bool) (x : α) (l : List α) :
    (insertLe le x l).Perm (x :: l) := by
  induction l with
  | nil => simp [insertLe]
  | cons y ys ih =>
      simp only [insertLe]
      split
      · exact List.Perm.refl _
      · exact (ih.cons y).trans (List.Perm.swap x y ys)

theorem sortLe_perm (le : α → α → Bool) (l : List α) :
    (sortLe le l).Perm l := by
  induction l with
  | nil => exact List.Perm.refl _
  | cons x xs ih =>
      exact (insertLe_perm le x (sortLe le xs)).trans (ih.cons x)

theorem mem_sortLe {le : α → α → Bool} {l : List α} {a : α} :
    a ∈ sortLe le l ↔ a ∈ l :=
  (sortLe_perm le l).mem_iff

/-- C7: the aggregator's dump merge is order-independent: for any two child
snapshots A and B, merging the dumps in order [A, B] yields the same result
as merging in order [B, A] — the per-table union of rows keyed by content
hash is commutative. -/
theorem mergeDumps_order_independent (a b : Dump) :
    mergeDumps [a, b] = mergeDumps [b, a] := by
  funext t
  simp only [mergeDumps, List.map_cons, List.map_nil, List.foldr_cons,
    List.foldr_nil, Finset.union_empty]
  exact Finset.union_comm _ _

/-- C3: the embedded `readRows` filter accepts the row `{b: 2}` for the
`where` clause `{a: null, b: 1}` — the `b = 1` entry is never checked
because the null/absent short-circuit (`return true`) accepts the row
first — although the spec's filter ("every where entry deep-equals")
rejects it.  The code diverges from the documented conjunction semantics
at this input. -/
theorem ioMem_readRows_null_shortcircuit_bug :
    IoMem.readRows dbNoMatch "t" c3Where = .ok [exRowB2]
    ∧ rowMatchesWhereSpec c3Where exRowB2 = false := by
  decide

/-- C9 counterexample: one readable child whose raw config log carries two
versions of the key `t0` — distinct content, hence distinct content
hashes.  The aggregator's `rawTableCfgs` returns only the first version:
entries with differing hashes are not all retained, because the JS `Map`
is keyed by `tableCfg.key`, not by hash. -/
theorem rawTableCfgs_drops_second_version :
    IoMulti.rawTableCfgs [c9Child] = .ok [c9CfgV1]
    ∧ c9CfgV1 ∈ IoMem.rawTableCfgs c9Child.io
    ∧ c9CfgV2 ∈ IoMem.rawTableCfgs c9Child.io
    ∧ c9CfgV1 ≠ c9CfgV2 := by
  decide

theorem dedupByKeyFirst_eq_firstSeen (l acc : List TableCfg) :
    dedupByKeyFirst acc l
      = acc ++ firstSeenPerKey
          (l.filter (fun e => !(acc.any (fun x => x.key = e.key)))) := by
  induction l generalizing acc with
  | nil => simp [dedupByKeyFirst, firstSeenPerKey]
  | cons c rest ih =>
      by_cases hmem : acc.any (fun x => x.key = c.key)
      · rw [dedupByKeyFirst, if_pos hmem, ih acc]
        have hfilter :
            (c :: rest).filter (fun e => !(acc.any (fun x => x.key = e.key)))
              = rest.filter (fun e => !(acc.any (fun x => x.key = e.key))) := by
          rw [List.filter_cons, if_neg]
          rw [hmem]
          exact fun h => by cases h
        rw [hfilter]
      · have hmem2 : (acc.any (fun x => x.key = c.key)) = false :=
          Bool.eq_false_iff.mpr hmem
        rw [dedupByKeyFirst, if_neg hmem, ih (acc ++ [c])]
        have hfilter :
            (c :: rest).filter (fun e => !(acc.any (fun x => x.key = e.key)))
              = c :: rest.filter (fun e => !(acc.any (fun x => x.key = e.key))) := by
          rw [List.filter_cons, if_pos]
          rw [hmem2]
          rfl
        rw [hfilter, firstSeenPerKey]
        have hpred :
            rest.filter (fun e => !((acc ++ [c]).any (fun x => x.key = e.key)))
              = (rest.filter (fun e => !(acc.any (fun x => x.key = e.key)))).filter
                  (fun e => e.key ≠ c.key) := by
          rw [List.filter_filter]
          apply List.filter_congr
          intro e _
          show (!((acc ++ [c]).any (fun x => x.key = e.key)))
              = ((decide (e.key ≠ c.key)) && !(acc.any (fun x => x.key = e.key)))
          rw [List.any_append, Bool.not_or]
          have hc : ([c].any (fun x => x.key = e.key)) = decide (e.key = c.key) := by
            by_cases h2 : c.key = e.key
            · simp [List.any_cons, h2]
            · have h2' : ¬ e.key = c.key := fun h => h2 h.symm
              simp [List.any_cons, h2, h2']
          have hne : (decide (e.key ≠ c.key)) = !(decide (e.key = c.key)) := by
            by_cases h2 : e.key = c.key <;> simp [h2]
          rw [hc, hne]
          exact Bool.and_comm _ _
        rw [hpred, List.append_assoc]
        rfl

/-- C9 amended: `rawTableCfgs()` queries every readable child in ascending
priority order and returns the concatenated config entries deduplicated by
table key, keeping the first-seen entry per key (entries whose keys differ
are all retained). -/
theorem rawTableCfgs_first_seen_per_key (ios : List IoMultiIo)
    (h : ¬ readables ios = []) :
    IoMulti.rawTableCfgs ios = .ok (firstSeenPerKey (allRawCfgs ios)) := by
  rw [IoMulti.rawTableCfgs, if_neg h, dedupByKeyFirst_eq_firstSeen]
  simp

/-- Witness for the amended C9 theorem at a concrete child list. -/
theorem rawTableCfgs_first_seen_per_key_witness :
    ¬ readables [c9Child] = []
    ∧ IoMulti.rawTableCfgs [c9Child]
        = .ok (firstSeenPerKey (allRawCfgs [c9Child])) :=
  ⟨by decide, rawTableCfgs_first_seen_per_key [c9Child] (by decide)⟩

theorem checkColumns_ok_take (tbl : String) (es us : List ColumnCfg)
    (hk : checkColumnKeys tbl es us = .ok ())
    (ht : checkColumnTypes tbl es us = .ok ()) :
    es = us.take es.length := by
  induction es generalizing us with
  | nil => rfl
  | cons e es' ih =>
      cases us with
      | nil => rw [checkColumnKeys] at hk; cases hk
      | cons u us' =>
          rw [checkColumnKeys] at hk
          rw [checkColumnTypes] at ht
          by_cases h1 : e.key = u.key
          · rw [if_neg (not_not_intro h1)] at hk
            by_cases h2 : e.type = u.type
            · rw [if_neg (not_not_intro h2)] at ht
              have hu : e = u := by
                cases e; cases u
                simp_all
              rw [List.length_cons, List.take_succ_cons, ← ih us' hk ht, hu]
            · rw [if_pos h2] at ht; cases ht
          · rw [if_pos h1] at hk; cases hk

theorem compat_ok_take (db : Db) (u existing : TableCfg)
    (hex : IoTools.tableCfgOrNull db u.key = some existing)
    (hok : IoTools.throwWhenTableIsNotCompatible db u = .ok ()) :
    existing.columns = u.columns.take existing.columns.length := by
  cases hinv : throwOnInvalidTableCfg u with
  | error e =>
      rw [IoTools.throwWhenTableIsNotCompatible, hinv] at hok
      cases hok
  | ok v =>
      rw [IoTools.throwWhenTableIsNotCompatible] at hok
      simp only [hinv, hex] at hok
      cases hdel : deletedColumnKeys existing u with
      | cons d ds => simp only [hdel] at hok; cases hok
      | nil =>
        simp only [hdel] at hok
        cases hkk : checkColumnKeys u.key existing.columns u.columns with
        | error e => simp only [hkk] at hok; cases hok
        | ok v2 =>
            simp only [hkk] at hok
            cases v2
            exact checkColumns_ok_take u.key existing.columns u.columns hkk hok

/-- C4: schema monotonicity of `createOrExtendTable`.  (1) A rejected call
returns the state unchanged — every check runs before any mutation.
(2) An accepted call's column list extends the previous config's column
list positionally: the previous columns are exactly the first entries of
the update's columns, same keys and types, none removed.  (3) An update
containing a column type outside the supported set is always rejected. -/
theorem createOrExtendTable_schema_monotonic (db : Db) (u : TableCfg) :
    (∀ e, (IoMem.createOrExtendTable db u).2 = some e →
        (IoMem.createOrExtendTable db u).1 = db)
    ∧ (∀ existing, IoTools.tableCfgOrNull db u.key = some existing →
        (IoMem.createOrExtendTable db u).2 = none →
        existing.columns = u.columns.take existing.columns.length)
    ∧ (∀ c, c ∈ u.columns → ¬ jsonValueTypes.contains c.type →
        (IoMem.createOrExtendTable db u).2 ≠ none) := by
  refine ⟨?_, ?_, ?_⟩
  · intro e h2
    rw [IoMem.createOrExtendTable] at h2 ⊢
    cases hcompat : IoTools.throwWhenTableIsNotCompatible db u with
    | error e0 => simp only [hcompat]
    | ok v =>
        simp only [hcompat] at h2
        cases hex : IoTools.tableCfgOrNull db u.key with
        | none => simp only [hex] at h2; cases h2
        | some existing => simp only [hex] at h2; cases h2
  · intro existing hex h2
    rw [IoMem.createOrExtendTable] at h2
    cases hcompat : IoTools.throwWhenTableIsNotCompatible db u with
    | error e0 => simp only [hcompat] at h2; cases h2
    | ok v =>
        cases v
        exact compat_ok_take db u existing hex hcompat
  · intro c hc hbad
    have hfind : (u.columns.find? (fun c => ¬ jsonValueTypes.contains c.type)).isSome := by
      rw [List.find?_isSome]
      exact ⟨c, hc, by simpa using hbad⟩
    cases hf : u.columns.find? (fun c => ¬ jsonValueTypes.contains c.type) with
    | none => rw [hf] at hfind; cases hfind
    | some c2 =>
        have hinv : throwOnInvalidTableCfg u
            = .error (.unsupportedColumnType u.key c2.key c2.type) := by
          rw [throwOnInvalidTableCfg, hf]
        intro h2
        rw [IoMem.createOrExtendTable, IoTools.throwWhenTableIsNotCompatible] at h2
        simp only [hinv] at h2
        cases h2

/-- Witness for C4 at concrete inputs: a renaming update is rejected and
leaves the state unchanged; the accepted extension `c4CfgV2` of `c4CfgV1`
keeps the previous columns as its first entries; the unsupported-type
update `c4CfgBadType` is rejected. -/
theorem createOrExtendTable_schema_monotonic_witness :
    (IoMem.createOrExtendTable c4Db c4CfgRenamed).1 = c4Db
    ∧ c4CfgV1.columns = c4CfgV2.columns.take c4CfgV1.columns.length
    ∧ (IoMem.createOrExtendTable c4Db c4CfgBadType).2 ≠ none :=
  ⟨(createOrExtendTable_schema_monotonic c4Db c4CfgRenamed).1
      (Err.columnRenamed "tbl" "a" "z") (by decide),
   (createOrExtendTable_schema_monotonic c4Db c4CfgV2).2.1 c4CfgV1
      (by decide) (by decide),
   (createOrExtendTable_schema_monotonic c4Db c4CfgBadType).2.2
      { key := "x", type := "unknown" } (by decide) (by decide)⟩

/-- C5: `write` validates before mutating and reports everything at once:
when any named table is missing, the write returns the unchanged state with
one error naming all missing table keys; when all tables exist but the
collected validation errors (gathered across every row of every table, not
cut off at the first) are non-empty, the write returns the unchanged state
with one error carrying the full list. -/
theorem write_rejects_atomically (db : Db) (data : WriteData) :
    ((dataTableKeys data).filter (fun k => ¬ IoMem.tableExists db k) ≠ [] →
      IoMem.write db data
        = (db, some (.tablesDoNotExist
            ((dataTableKeys data).filter (fun k => ¬ IoMem.tableExists db k)))))
    ∧ (∀ errs,
        (dataTableKeys data).filter (fun k => ¬ IoMem.tableExists db k) = [] →
        collectValidationErrors db data (dataTableKeys data) = .ok errs →
        errs ≠ [] →
        IoMem.write db data = (db, some (.tableDataDoesNotMatchCfg errs))) := by
  constructor
  · intro hmiss
    rw [IoMem.write, IoTools.throwWhenTablesDoNotExist]
    rw [if_neg hmiss]
  · intro errs hmiss hcoll herrs
    rw [IoMem.write, IoTools.throwWhenTablesDoNotExist, if_pos hmiss]
    rw [IoTools.throwWhenTableDataDoesNotMatchCfg]
    simp only [hcoll]
    rw [if_neg herrs]

/-- Witness for C5: a write naming a missing table is rejected with the
missing key and no state change; a write with one extra-column error in the
first row and one type-mismatch error in the second row is rejected with
both errors and no state change. -/
theorem write_rejects_atomically_witness :
    IoMem.write dbMatch [("nope", [])]
      = (dbMatch, some (.tablesDoNotExist ["nope"]))
    ∧ IoMem.write dbMatch c5BadData
      = (dbMatch, some (.tableDataDoesNotMatchCfg
          [.extraColumn "t" "zzz", .typeMismatch "t" "a" "string"])) :=
  ⟨(write_rejects_atomically dbMatch [("nope", [])]).1 (by decide),
   (write_rejects_atomically dbMatch c5BadData).2
      [.extraColumn "t" "zzz", .typeMismatch "t" "a" "string"]
      (by decide) (by decide) (by decide)⟩

theorem write_ok_inversion (db : Db) (data : WriteData)
    (h : (IoMem.write db data).2 = none) :
    IoTools.throwWhenTablesDoNotExist db data = .ok ()
    ∧ IoTools.throwWhenTableDataDoesNotMatchCfg db data = .ok ()
    ∧ IoMem.write db data
        = ({ db with tables := mergeAll db.tables (removeNullValues data) }, none) := by
  cases h1 : IoTools.throwWhenTablesDoNotExist db data with
  | error e =>
      rw [IoMem.write] at h
      simp only [h1] at h
      cases h
  | ok v1 =>
      cases v1
      cases h2 : IoTools.throwWhenTableDataDoesNotMatchCfg db data with
      | error e =>
          rw [IoMem.write] at h
          simp only [h1, h2] at h
          cases h
      | ok v2 =>
          cases v2
          refine ⟨rfl, rfl, ?_⟩
          rw [IoMem.write]
          simp only [h1, h2]

theorem dataMatch_ok_collect (db : Db) (data : WriteData)
    (h : IoTools.throwWhenTableDataDoesNotMatchCfg db data = .ok ()) :
    collectValidationErrors db data (dataTableKeys data) = .ok [] := by
  rw [IoTools.throwWhenTableDataDoesNotMatchCfg] at h
  cases hc : collectValidationErrors db data (dataTableKeys data) with
  | error e => simp only [hc] at h; cases h
  | ok errs =>
      simp only [hc] at h
      by_cases he : errs = []
      · rw [he]
      · rw [if_neg he] at h; cases h

theorem dataMatch_ok_of_collect (db : Db) (data : WriteData)
    (h : collectValidationErrors db data (dataTableKeys data) = .ok []) :
    IoTools.throwWhenTableDataDoesNotMatchCfg db data = .ok () := by
  rw [IoTools.throwWhenTableDataDoesNotMatchCfg]
  simp only [h]
  simp

theorem tableCfgOrNull_log_congr (dbA dbB : Db)
    (hlog : dbA.tableCfgsLog = dbB.tableCfgsLog) (k : String) :
    IoTools.tableCfgOrNull dbA k = IoTools.tableCfgOrNull dbB k := by
  rw [IoTools.tableCfgOrNull, IoTools.tableCfgOrNull, IoTools.tableCfgs,
    IoTools.tableCfgs, hlog]

theorem collect_log_congr (dbA dbB : Db)
    (hlog : dbA.tableCfgsLog = dbB.tableCfgsLog) (data : WriteData)
    (ks : List String) :
    collectValidationErrors dbA data ks = collectValidationErrors dbB data ks := by
  induction ks with
  | nil => rfl
  | cons k ks ih =>
      rw [collectValidationErrors, collectValidationErrors,
        tableCfgOrNull_log_congr dbA dbB hlog k, ih]

theorem mergeRows_mem_old (new : List Row) (old : List Row) (i : Row)
    (hi : i ∈ old) : i ∈ mergeRows old new := by
  induction new generalizing old with
  | nil => simpa [mergeRows] using hi
  | cons item items ih =>
      rw [mergeRows]
      split
      · exact ih old hi
      · exact ih (old ++ [item]) (List.mem_append_left _ hi)

theorem mergeRows_covers (new : List Row) (old : List Row) (r : Row)
    (hr : r ∈ new) :
    ∃ i ∈ mergeRows old new, rowHash i = rowHash r := by
  induction new generalizing old with
  | nil => cases hr
  | cons item items ih =>
      rw [mergeRows]
      rcases List.mem_cons.mp hr with h | h
      · subst h
        by_cases hany : old.any (fun i => rowHash i = rowHash r)
        · rw [if_pos hany]
          obtain ⟨i, hi, hhash⟩ :=
            (List.any_eq_true.mp hany)
          exact ⟨i, mergeRows_mem_old items old i hi, by simpa using hhash⟩
        · rw [if_neg hany]
          exact ⟨r, mergeRows_mem_old items (old ++ [r]) r
            (List.mem_append_right _ (List.mem_cons_self r [])), rfl⟩
      · by_cases hany : old.any (fun i => rowHash i = rowHash item)
        · rw [if_pos hany]; exact ih old h
        · rw [if_neg hany]; exact ih (old ++ [item]) h

theorem mergeRows_id (new : List Row) (old : List Row)
    (h : ∀ r ∈ new, ∃ i ∈ old, rowHash i = rowHash r) :
    mergeRows old new = old := by
  induction new with
  | nil => rfl
  | cons item items ih =>
      rw [mergeRows]
      have hany : old.any (fun i => rowHash i = rowHash item) := by
        obtain ⟨i, hi, hh⟩ := h item (List.mem_cons_self _ _)
        exact List.any_eq_true.mpr ⟨i, hi, by simpa using hh⟩
      rw [if_pos hany]
      exact ih (fun r hr => h r (List.mem_cons_of_mem _ hr))

theorem mergeTableRows_find?_self (k : String) (rows : List Row)
    (ts : List (String × Table)) :
    (mergeTableRows k rows ts).find? (fun e => e.1 = k)
      = (ts.find? (fun e => e.1 = k)).map
          (fun e => (e.1, { e.2 with data := mergeRows e.2.data rows })) := by
  induction ts with
  | nil => rfl
  | cons hd tl ih =>
      obtain ⟨k0, t0⟩ := hd
      rw [mergeTableRows]
      by_cases hk : k0 = k
      · rw [if_pos hk]
        rw [List.find?_cons_of_pos _ (by simpa using hk),
          List.find?_cons_of_pos _ (by simpa using hk)]
        rfl
      · rw [if_neg hk]
        rw [List.find?_cons_of_neg _ (by simpa using hk),
          List.find?_cons_of_neg _ (by simpa using hk)]
        exact ih

theorem mergeTableRows_find?_other (k k' : String) (hkk : ¬ k' = k)
    (rows : List Row) (ts : List (String × Table)) :
    (mergeTableRows k rows ts).find? (fun e => e.1 = k')
      = ts.find? (fun e => e.1 = k') := by
  induction ts with
  | nil => rfl
  | cons hd tl ih =>
      obtain ⟨k0, t0⟩ := hd
      rw [mergeTableRows]
      by_cases hk : k0 = k
      · rw [if_pos hk]
        have hne : ¬ k0 = k' := fun h => hkk (h ▸ hk ▸ rfl)
        rw [List.find?_cons_of_neg _ (by simpa using hne),
          List.find?_cons_of_neg _ (by simpa using hne)]
      · rw [if_neg hk]
        by_cases hk' : k0 = k'
        · rw [List.find?_cons_of_pos _ (by simpa using hk'),
            List.find?_cons_of_pos _ (by simpa using hk')]
        · rw [List.find?_cons_of_neg _ (by simpa using hk'),
            List.find?_cons_of_neg _ (by simpa using hk')]
          exact ih

theorem mergeTableRows_fst (k : String) (rows : List Row)
    (ts : List (String × Table)) :
    (mergeTableRows k rows ts).map (·.1) = ts.map (·.1) := by
  induction ts with
  | nil => rfl
  | cons hd tl ih =>
      obtain ⟨k0, t0⟩ := hd
      rw [mergeTableRows]
      by_cases hk : k0 = k
      · rw [if_pos hk]
        simp
      · rw [if_neg hk]
        simpa using ih

theorem mergeAll_fst (d : WriteData) (ts : List (String × Table)) :
    (mergeAll ts d).map (·.1) = ts.map (·.1) := by
  induction d generalizing ts with
  | nil => rfl
  | cons hd rest ih =>
      obtain ⟨k, rows⟩ := hd
      rw [mergeAll]
      by_cases hu : startsWithUnderscore k
      · rw [if_pos hu]; exact ih ts
      · rw [if_neg hu]
        rw [ih (mergeTableRows k rows ts), mergeTableRows_fst]

theorem dataSup_refl (ts : List (String × Table)) : dataSup ts ts :=
  ⟨fun _ h => h, fun _ t h => ⟨t, h, fun _ hi => hi⟩⟩

theorem dataSup_trans {ts1 ts2 ts3 : List (String × Table)}
    (h12 : dataSup ts1 ts2) (h23 : dataSup ts2 ts3) : dataSup ts1 ts3 := by
  refine ⟨fun k h => h23.1 k (h12.1 k h), fun k t h => ?_⟩
  obtain ⟨t2, h2, hsub2⟩ := h12.2 k t h
  obtain ⟨t3, h3, hsub3⟩ := h23.2 k t2 h2
  exact ⟨t3, h3, fun i hi => hsub3 i (hsub2 i hi)⟩

theorem dataSup_mergeTableRows (k : String) (rows : List Row)
    (ts : List (String × Table)) : dataSup ts (mergeTableRows k rows ts) := by
  constructor
  · intro k' h
    by_cases hk : k' = k
    · subst hk
      rw [mergeTableRows_find?_self, h]
      rfl
    · rw [mergeTableRows_find?_other k k' hk, h]
  · intro k' t h
    by_cases hk : k' = k
    · subst hk
      rw [mergeTableRows_find?_self, h]
      exact ⟨(t.1, { t.2 with data := mergeRows t.2.data rows }), rfl,
        fun i hi => mergeRows_mem_old rows t.2.data i hi⟩
    · rw [mergeTableRows_find?_other k k' hk]
      exact ⟨t, h, fun _ hi => hi⟩

theorem dataSup_mergeAll (d : WriteData) (ts : List (String × Table)) :
    dataSup ts (mergeAll ts d) := by
  induction d generalizing ts with
  | nil => exact dataSup_refl ts
  | cons hd rest ih =>
      obtain ⟨k, rows⟩ := hd
      rw [mergeAll]
      by_cases hu : startsWithUnderscore k
      · rw [if_pos hu]; exact ih ts
      · rw [if_neg hu]
        exact dataSup_trans (dataSup_mergeTableRows k rows ts)
          (ih (mergeTableRows k rows ts))

theorem rowsCovered_mono {ts ts2 : List (String × Table)} {k : String}
    {rows : List Row} (hsup : dataSup ts ts2)
    (hcov : rowsCovered ts k rows) : rowsCovered ts2 k rows := by
  intro t2 hfind2 r hr
  cases hfind1 : ts.find? (fun e => e.1 = k) with
  | none =>
      rw [hsup.1 k hfind1] at hfind2
      cases hfind2
  | some t1 =>
      obtain ⟨i, hi, hh⟩ := hcov t1 hfind1 r hr
      obtain ⟨t2', hfind2', hsub⟩ := hsup.2 k t1 hfind1
      rw [hfind2'] at hfind2
      cases hfind2
      exact ⟨i, hsub i hi, hh⟩

theorem mergeTableRows_covers_self (k : String) (rows : List Row)
    (ts : List (String × Table)) :
    rowsCovered (mergeTableRows k rows ts) k rows := by
  intro t2 hfind r hr
  rw [mergeTableRows_find?_self] at hfind
  obtain ⟨t1, hfind1, heq⟩ := Option.map_eq_some'.mp hfind
  subst heq
  exact mergeRows_covers rows t1.2.data r hr

theorem mergeAll_covers (d : WriteData) (ts : List (String × Table))
    (k : String) (rows : List Row) (hmem : (k, rows) ∈ d)
    (hu : ¬ startsWithUnderscore k) :
    rowsCovered (mergeAll ts d) k rows := by
  induction d generalizing ts with
  | nil => cases hmem
  | cons hd rest ih =>
      obtain ⟨k0, rows0⟩ := hd
      rw [mergeAll]
      rcases List.mem_cons.mp hmem with heq | hmem'
      · injection heq with hek her
        subst hek
        subst her
        rw [if_neg hu]
        exact rowsCovered_mono (dataSup_mergeAll rest (mergeTableRows k rows ts))
          (mergeTableRows_covers_self k rows ts)
      · by_cases hu0 : startsWithUnderscore k0
        · rw [if_pos hu0]; exact ih ts hmem'
        · rw [if_neg hu0]; exact ih (mergeTableRows k0 rows0 ts) hmem'

theorem mergeTableRows_id (k : String) (rows : List Row)
    (ts : List (String × Table)) (h : rowsCovered ts k rows) :
    mergeTableRows k rows ts = ts := by
  induction ts with
  | nil => rfl
  | cons hd tl ih =>
      obtain ⟨k0, t0⟩ := hd
      rw [mergeTableRows]
      by_cases hk : k0 = k
      · rw [if_pos hk]
        have hfind : ((k0, t0) :: tl).find? (fun e => e.1 = k) = some (k0, t0) :=
          List.find?_cons_of_pos _ (by simpa using hk)
        have hdata : mergeRows t0.data rows = t0.data :=
          mergeRows_id rows t0.data (fun r hr => h (k0, t0) hfind r hr)
        rw [hdata]
      · rw [if_neg hk]
        have h' : rowsCovered tl k rows := by
          intro t hfind r hr
          exact h t (by
            rw [List.find?_cons_of_neg _ (by simpa using hk)]
            exact hfind) r hr
        rw [ih h']

theorem mergeAll_id (d : WriteData) (ts : List (String × Table))
    (h : ∀ e ∈ d, ¬ startsWithUnderscore e.1 → rowsCovered ts e.1 e.2) :
    mergeAll ts d = ts := by
  induction d with
  | nil => rfl
  | cons hd rest ih =>
      obtain ⟨k, rows⟩ := hd
      rw [mergeAll]
      by_cases hu : startsWithUnderscore k
      · rw [if_pos hu]
        exact ih (fun e he => h e (List.mem_cons_of_mem _ he))
      · rw [if_neg hu]
        rw [mergeTableRows_id k rows ts (h (k, rows) (List.mem_cons_self _ _) hu)]
        exact ih (fun e he => h e (List.mem_cons_of_mem _ he))

theorem mergeAll_idem (d : WriteData) (ts : List (String × Table)) :
    mergeAll (mergeAll ts d) d = mergeAll ts d :=
  mergeAll_id d (mergeAll ts d)
    (fun e he hu => mergeAll_covers d ts e.1 e.2 he hu)

theorem isSome_map_opt {α β : Type} (f : α → β) (o : Option α) :
    (o.map f).isSome = o.isSome := by
  cases o <;> rfl

theorem tableExists_mergeAll (db : Db) (d : WriteData) (k : String) :
    IoMem.tableExists { db with tables := mergeAll db.tables d } k
      = IoMem.tableExists db k := by
  rw [IoMem.tableExists, IoMem.tableExists, Db.tableOrNull, Db.tableOrNull,
    isSome_map_opt, isSome_map_opt]
  have h1 := mergeAll_fst d db.tables
  rw [Bool.eq_iff_iff, List.find?_isSome, List.find?_isSome]
  constructor
  · rintro ⟨x, hx, hpx⟩
    have : x.1 ∈ (mergeAll db.tables d).map (·.1) := List.mem_map_of_mem _ hx
    rw [h1] at this
    obtain ⟨y, hy, hyx⟩ := List.mem_map.mp this
    exact ⟨y, hy, by simp_all⟩
  · rintro ⟨x, hx, hpx⟩
    have : x.1 ∈ db.tables.map (·.1) := List.mem_map_of_mem _ hx
    rw [← h1] at this
    obtain ⟨y, hy, hyx⟩ := List.mem_map.mp this
    exact ⟨y, hy, by simp_all⟩

theorem tablesExist_ok_inversion (db : Db) (data : WriteData)
    (h : IoTools.throwWhenTablesDoNotExist db data = .ok ()) :
    (dataTableKeys data).filter (fun k => ¬ IoMem.tableExists db k) = [] := by
  rw [IoTools.throwWhenTablesDoNotExist] at h
  by_cases hm :
      (dataTableKeys data).filter (fun k => ¬ IoMem.tableExists db k) = []
  · exact hm
  · rw [if_neg hm] at h; cases h

/-- C6: idempotent write.  A successful `write` leaves a state on which the
same `write` succeeds again without any change: same tables, hence same
per-table row count and (since the aggregate hashes are pure functions of
content) the same table hashes. -/
theorem write_idempotent (db : Db) (data : WriteData) (db2 : Db)
    (h : IoMem.write db data = (db2, none)) :
    IoMem.write db2 data = (db2, none) := by
  have h2 : (IoMem.write db data).2 = none := by rw [h]
  obtain ⟨hex, hval, heq⟩ := write_ok_inversion db data h2
  rw [h] at heq
  injection heq with heq1 _
  subst heq1
  have hkeys : ∀ k,
      IoMem.tableExists { db with tables := mergeAll db.tables (removeNullValues data) } k
        = IoMem.tableExists db k :=
    fun k => tableExists_mergeAll db (removeNullValues data) k
  have hex' : IoTools.throwWhenTablesDoNotExist
      { db with tables := mergeAll db.tables (removeNullValues data) } data = .ok () := by
    have hmiss := tablesExist_ok_inversion db data hex
    rw [IoTools.throwWhenTablesDoNotExist]
    rw [List.filter_congr (fun k _ => by rw [hkeys k])]
    rw [if_pos hmiss]
  have hcoll := dataMatch_ok_collect db data hval
  have hcoll' : collectValidationErrors
      { db with tables := mergeAll db.tables (removeNullValues data) } data
      (dataTableKeys data) = .ok [] :=
    (collect_log_congr
      { db with tables := mergeAll db.tables (removeNullValues data) } db rfl
      data (dataTableKeys data)).trans hcoll
  have hval' := dataMatch_ok_of_collect _ data hcoll'
  rw [IoMem.write]
  simp only [hex', hval']
  have h5 : mergeAll ({ db with tables := mergeAll db.tables (removeNullValues data) } : Db).tables
        (removeNullValues data)
      = ({ db with tables := mergeAll db.tables (removeNullValues data) } : Db).tables :=
    mergeAll_idem (removeNullValues data) db.tables
  rw [h5]

/-- Witness for C6: writing the row `{b: 2}` into `dbMatch` yields `dbW6`;
writing the same data again leaves `dbW6` unchanged. -/
theorem write_idempotent_witness :
    IoMem.write dbW6 [("t", [exRowB2])] = (dbW6, none) :=
  write_idempotent dbMatch [("t", [exRowB2])] dbW6 (by decide)

theorem dataTableKeys_removeNull (data : WriteData) :
    dataTableKeys (removeNullValues data) = dataTableKeys data := by
  rw [dataTableKeys, dataTableKeys, removeNullValues, List.map_map]
  rfl

theorem rowsOfTable_removeNull (data : WriteData) (k : String) :
    rowsOfTable (removeNullValues data) k
      = (rowsOfTable data k).map stripNullFields := by
  induction data with
  | nil => rfl
  | cons hd tl ih =>
      obtain ⟨k0, rows0⟩ := hd
      rw [removeNullValues, List.map_cons]
      rw [rowsOfTable, rowsOfTable]
      by_cases hk : k0 = k
      · rw [List.find?_cons_of_pos _ (by simpa using hk),
          List.find?_cons_of_pos _ (by simpa using hk)]
        rfl
      · rw [List.find?_cons_of_neg _ (by simpa using hk),
          List.find?_cons_of_neg _ (by simpa using hk)]
        exact ih

theorem validateRow_strip (table : String) (cfg : TableCfg) (row : Row)
    (h : validateRowAgainstCfg table cfg row = []) :
    validateRowAgainstCfg table cfg (stripNullFields row) = [] := by
  simp only [validateRowAgainstCfg, List.append_eq_nil, List.map_eq_nil_iff,
    List.filter_eq_nil_iff] at h ⊢
  obtain ⟨h1, h2⟩ := h
  constructor
  · intro a ha
    exact h1 a (List.mem_filter.mp ha).1
  · intro a ha
    exact h2 a (List.mem_filter.mp ha).1

theorem validateTable_strip (table : String) (cfg : TableCfg) (rows : List Row)
    (h : validateTableAgainstCfg table cfg rows = []) :
    validateTableAgainstCfg table cfg (rows.map stripNullFields) = [] := by
  rw [validateTableAgainstCfg] at h ⊢
  rw [List.flatMap_map]
  rw [List.flatMap_eq_nil_iff] at h ⊢
  intro r hr
  exact validateRow_strip table cfg r (h r hr)

theorem collect_strip (db : Db) (data : WriteData) (ks : List String)
    (h : collectValidationErrors db data ks = .ok []) :
    collectValidationErrors db (removeNullValues data) ks = .ok [] := by
  induction ks with
  | nil => rfl
  | cons k ks ih =>
      rw [collectValidationErrors] at h ⊢
      cases hc : IoTools.tableCfgOrNull db k with
      | none => simp only [hc] at h; cases h
      | some cfg =>
          simp only [hc] at h ⊢
          cases hrec : collectValidationErrors db data ks with
          | error e => simp only [hrec] at h; cases h
          | ok es =>
              simp only [hrec] at h
              injection h with h'
              obtain ⟨hv, hes⟩ := List.append_eq_nil.mp h'
              rw [hes] at hrec
              simp only [ih hrec]
              rw [rowsOfTable_removeNull, validateTable_strip _ _ _ hv]
              rfl

theorem stripNullFields_idem (r : Row) :
    stripNullFields (stripNullFields r) = stripNullFields r := by
  simp only [stripNullFields, List.filter_filter]
  exact List.filter_congr (fun a _ => Bool.and_self _)

theorem removeNull_idem (data : WriteData) :
    removeNullValues (removeNullValues data) = removeNullValues data := by
  simp only [removeNullValues, List.map_map]
  apply List.map_congr_left
  intro t _
  simp [stripNullFields_idem]

/-- C10: `write` strips null-valued fields before hashing and merging:
whenever a write succeeds, writing the same data with all null fields
removed is the very same operation — same stored fields, and since content
hashes are pure functions of the stored content, the same hashes. -/
theorem write_null_fields_equal_absent (db : Db) (data : WriteData)
    (h : (IoMem.write db data).2 = none) :
    IoMem.write db (removeNullValues data) = IoMem.write db data := by
  obtain ⟨hex, hval, heq⟩ := write_ok_inversion db data h
  have hcoll := dataMatch_ok_collect db data hval
  have hex2 : IoTools.throwWhenTablesDoNotExist db (removeNullValues data)
      = .ok () := by
    rw [IoTools.throwWhenTablesDoNotExist, dataTableKeys_removeNull]
    rw [if_pos (tablesExist_ok_inversion db data hex)]
  have hcoll2 : collectValidationErrors db (removeNullValues data)
      (dataTableKeys (removeNullValues data)) = .ok [] := by
    rw [dataTableKeys_removeNull]
    exact collect_strip db data _ hcoll
  have hval2 := dataMatch_ok_of_collect db (removeNullValues data) hcoll2
  rw [IoMem.write, IoMem.write]
  simp only [hex, hval, hex2, hval2]
  rw [removeNull_idem]

/-- Witness for C10: writing a row carrying an explicit null field `b` into
`dbMatch` equals writing the stripped row. -/
theorem write_null_fields_equal_absent_witness :
    IoMem.write dbMatch (removeNullValues c10Data)
      = IoMem.write dbMatch c10Data :=
  write_null_fields_equal_absent dbMatch c10Data (by decide)

theorem updateNewest_find? (t : TableCfg) (acc : List TableCfg) (k : String) :
    (updateNewest t acc).find? (fun e => e.key = k)
      = if k = t.key then
          match acc.find? (fun e => e.key = k) with
          | none => some t
          | some e =>
              if e.columns.length < t.columns.length then some t else some e
        else acc.find? (fun e => e.key = k) := by
  induction acc with
  | nil =>
      rw [updateNewest]
      by_cases hk : k = t.key
      · rw [if_pos hk, List.find?_cons_of_pos _ (by simpa using hk.symm)]
        rfl
      · rw [if_neg hk, List.find?_cons_of_neg _ (by simpa using fun h => hk h.symm)]
  | cons e es ih =>
      rw [updateNewest]
      by_cases he : e.key = t.key
      · rw [if_pos he]
        by_cases hk : k = t.key
        · rw [if_pos hk]
          have hpe : (fun x => decide (x.key = k)) e = true := by
            simpa using he.trans hk.symm
          by_cases hg : e.columns.length < t.columns.length
          · rw [if_pos hg]
            rw [List.find?_cons_of_pos es
              (show (fun x => decide (x.key = k)) t = true by simpa using hk.symm)]
            rw [List.find?_cons_of_pos es hpe]
            show some t
              = if e.columns.length < t.columns.length then some t else some e
            rw [if_pos hg]
          · rw [if_neg hg]
            rw [List.find?_cons_of_pos es hpe]
            show some e
              = if e.columns.length < t.columns.length then some t else some e
            rw [if_neg hg]
        · rw [if_neg hk]
          have hpe : ¬ (fun x => decide (x.key = k)) e = true := by
            simpa using fun h => hk (h.symm.trans he)
          by_cases hg : e.columns.length < t.columns.length
          · rw [if_pos hg]
            rw [List.find?_cons_of_neg es
              (show ¬ (fun x => decide (x.key = k)) t = true by
                simpa using fun h => hk h.symm)]
            rw [List.find?_cons_of_neg es hpe]
          · rw [if_neg hg]
      · rw [if_neg he]
        by_cases hek : e.key = k
        · have hpe : (fun x => decide (x.key = k)) e = true := by simpa using hek
          rw [List.find?_cons_of_pos (updateNewest t es) hpe,
            List.find?_cons_of_pos es hpe]
          by_cases hk : k = t.key
          · exact absurd (hek.trans hk) he
          · rw [if_neg hk]
        · have hpe : ¬ (fun x => decide (x.key = k)) e = true := by
            simpa using hek
          rw [List.find?_cons_of_neg (updateNewest t es) hpe,
            List.find?_cons_of_neg es hpe, ih]

theorem updateNewest_keys (t : TableCfg) (acc : List TableCfg) :
    (updateNewest t acc).map (·.key)
      = if (acc.map (·.key)).contains t.key then acc.map (·.key)
        else acc.map (·.key) ++ [t.key] := by
  induction acc with
  | nil => simp [updateNewest]
  | cons e es ih =>
      rw [updateNewest]
      by_cases he : e.key = t.key
      · rw [if_pos he]
        have hcont : ((e :: es).map (·.key)).contains t.key = true := by
          rw [List.map_cons, List.contains_cons]
          have : (t.key == e.key) = true := by simp [he.symm]
          rw [this, Bool.true_or]
        rw [if_pos hcont]
        by_cases hg : e.columns.length < t.columns.length
        · rw [if_pos hg]
          simp [he]
        · rw [if_neg hg]
      · rw [if_neg he]
        have hbeq : (t.key == e.key) = false :=
          beq_eq_false_iff_ne.mpr (fun h => he h.symm)
        rw [List.map_cons, List.map_cons, List.contains_cons, hbeq,
          Bool.false_or, ih]
        by_cases hc : (es.map (·.key)).contains t.key
        · rw [if_pos hc, if_pos hc]
        · rw [if_neg hc, if_neg hc]
          rfl

theorem updateNewest_nodup (t : TableCfg) (acc : List TableCfg)
    (h : (acc.map (·.key)).Nodup) :
    ((updateNewest t acc).map (·.key)).Nodup := by
  rw [updateNewest_keys]
  by_cases hc : (acc.map (·.key)).contains t.key
  · rw [if_pos hc]; exact h
  · rw [if_neg hc]
    rw [List.nodup_append]
    refine ⟨h, List.nodup_singleton _, ?_⟩
    intro x hx hmem
    rw [List.mem_singleton] at hmem
    subst hmem
    exact hc (List.elem_eq_true_of_mem hx)

theorem collapse_invariant (l : List TableCfg) (acc seen : List TableCfg)
    (hnodup : (acc.map (·.key)).Nodup)
    (hsome : ∀ k e, acc.find? (fun x => x.key = k) = some e →
        e ∈ seen ∧ e.key = k
          ∧ ∀ p ∈ seen, p.key = k → p.columns.length ≤ e.columns.length)
    (hnone : ∀ k, acc.find? (fun x => x.key = k) = none →
        ∀ p ∈ seen, ¬ p.key = k) :
    (((l.foldl (fun a t => updateNewest t a) acc).map (·.key)).Nodup)
    ∧ (∀ k e, (l.foldl (fun a t => updateNewest t a) acc).find?
          (fun x => x.key = k) = some e →
        e ∈ seen ++ l ∧ e.key = k
          ∧ ∀ p ∈ seen ++ l, p.key = k → p.columns.length ≤ e.columns.length)
    ∧ (∀ k, (l.foldl (fun a t => updateNewest t a) acc).find?
          (fun x => x.key = k) = none → ∀ p ∈ seen ++ l, ¬ p.key = k) := by
  induction l generalizing acc seen with
  | nil =>
      simp only [List.foldl_nil, List.append_nil]
      exact ⟨hnodup, hsome, hnone⟩
  | cons t rest ih =>
      rw [List.foldl_cons]
      have step_some : ∀ k e,
          (updateNewest t acc).find? (fun x => x.key = k) = some e →
          e ∈ seen ++ [t] ∧ e.key = k
            ∧ ∀ p ∈ seen ++ [t], p.key = k →
                p.columns.length ≤ e.columns.length := by
        intro k e hf
        rw [updateNewest_find?] at hf
        by_cases hk : k = t.key
        · rw [if_pos hk] at hf
          cases hacc : acc.find? (fun x => x.key = k) with
          | none =>
              simp only [hacc] at hf
              injection hf with hte
              subst hte
              refine ⟨List.mem_append_right _ (List.mem_singleton_self _),
                hk.symm, ?_⟩
              intro p hp hpk
              rcases List.mem_append.mp hp with hps | hpt
              · exact absurd hpk (hnone k hacc p hps)
              · rw [List.mem_singleton] at hpt
                subst hpt
                exact Nat.le_refl _
          | some e0 =>
              simp only [hacc] at hf
              by_cases hg : e0.columns.length < t.columns.length
              · rw [if_pos hg] at hf
                injection hf with hte
                subst hte
                obtain ⟨he0seen, he0key, he0max⟩ := hsome k e0 hacc
                refine ⟨List.mem_append_right _ (List.mem_singleton_self _),
                  hk.symm, ?_⟩
                intro p hp hpk
                rcases List.mem_append.mp hp with hps | hpt
                · exact Nat.le_trans (he0max p hps hpk) (Nat.le_of_lt hg)
                · rw [List.mem_singleton] at hpt
                  subst hpt
                  exact Nat.le_refl _
              · rw [if_neg hg] at hf
                injection hf with hte
                subst hte
                obtain ⟨he0seen, he0key, he0max⟩ := hsome k e0 hacc
                refine ⟨List.mem_append_left _ he0seen, he0key, ?_⟩
                intro p hp hpk
                rcases List.mem_append.mp hp with hps | hpt
                · exact he0max p hps hpk
                · rw [List.mem_singleton] at hpt
                  subst hpt
                  exact Nat.le_of_not_lt hg
        · rw [if_neg hk] at hf
          obtain ⟨hseen, hkey, hmax⟩ := hsome k e hf
          refine ⟨List.mem_append_left _ hseen, hkey, ?_⟩
          intro p hp hpk
          rcases List.mem_append.mp hp with hps | hpt
          · exact hmax p hps hpk
          · rw [List.mem_singleton] at hpt
            subst hpt
            exact absurd hpk.symm hk
      have step_none : ∀ k,
          (updateNewest t acc).find? (fun x => x.key = k) = none →
          ∀ p ∈ seen ++ [t], ¬ p.key = k := by
        intro k hf p hp
        rw [updateNewest_find?] at hf
        by_cases hk : k = t.key
        · rw [if_pos hk] at hf
          cases hacc : acc.find? (fun x => x.key = k) with
          | none => simp only [hacc] at hf; cases hf
          | some e0 =>
              simp only [hacc] at hf
              by_cases hg : e0.columns.length < t.columns.length
              · rw [if_pos hg] at hf; cases hf
              · rw [if_neg hg] at hf; cases hf
        · rw [if_neg hk] at hf
          rcases List.mem_append.mp hp with hps | hpt
          · exact hnone k hf p hps
          · rw [List.mem_singleton] at hpt
            subst hpt
            exact fun h => hk h.symm
      have hmain := ih (updateNewest t acc) (seen ++ [t])
        (updateNewest_nodup t acc hnodup) step_some step_none
      rw [List.append_assoc] at hmain
      exact hmain

theorem collapseNewest_props (log : List TableCfg) :
    ((collapseNewest log).map (·.key)).Nodup
    ∧ (∀ k e, (collapseNewest log).find? (fun x => x.key = k) = some e →
        e ∈ log ∧ e.key = k
          ∧ ∀ p ∈ log, p.key = k → p.columns.length ≤ e.columns.length)
    ∧ (∀ k, (collapseNewest log).find? (fun x => x.key = k) = none →
        ∀ p ∈ log, ¬ p.key = k) := by
  have h := collapse_invariant log.reverse [] []
    (by simp)
    (fun k e hf => by rw [List.find?_nil] at hf; cases hf)
    (fun k _ p hp => (List.not_mem_nil p hp).elim)
  rw [collapseNewest]
  obtain ⟨h1, h2, h3⟩ := h
  refine ⟨h1, ?_, ?_⟩
  · intro k e hf
    obtain ⟨hm, hk, hmax⟩ := h2 k e hf
    refine ⟨List.mem_reverse.mp (by simpa using hm), hk, ?_⟩
    intro p hp hpk
    exact hmax p (by simpa using List.mem_reverse.mpr hp) hpk
  · intro k hf p hp
    exact h3 k hf p (by simpa using List.mem_reverse.mpr hp)

theorem mem_find?_key_self (acc : List TableCfg) (c : TableCfg)
    (hnodup : (acc.map (·.key)).Nodup) (hc : c ∈ acc) :
    acc.find? (fun x => x.key = c.key) = some c := by
  induction acc with
  | nil => cases hc
  | cons e es ih =>
      rw [List.map_cons, List.nodup_cons] at hnodup
      rcases List.mem_cons.mp hc with rfl | hc'
      · exact List.find?_cons_of_pos _ (by simp)
      · have hek : ¬ e.key = c.key := by
          intro h
          exact hnodup.1 (by
            rw [h]
            exact List.mem_map_of_mem (fun x => x.key) hc')
        rw [List.find?_cons_of_neg _ (by simpa using hek)]
        exact ih hnodup.2 hc'

/-- The `IoTools.tableCfgs` side of the per-key selection: the collapse
keeps exactly one entry per logged key, and the entry kept for a key is a
logged config with the greatest column count among the log's entries for
that key. -/
theorem ioTools_tableCfgs_greatest (db : Db) :
    (∀ c ∈ IoTools.tableCfgs db, c ∈ db.tableCfgsLog
        ∧ ∀ c2 ∈ db.tableCfgsLog, c2.key = c.key →
            c2.columns.length ≤ c.columns.length)
    ∧ ∀ k, (∃ c ∈ db.tableCfgsLog, c.key = k) →
        ∃! c, c ∈ IoTools.tableCfgs db ∧ c.key = k := by
  obtain ⟨h1, h2, h3⟩ := collapseNewest_props db.tableCfgsLog
  constructor
  · intro c hcmem
    have hcol : c ∈ collapseNewest db.tableCfgsLog := by
      rw [IoTools.tableCfgs] at hcmem
      exact mem_sortLe.mp hcmem
    have hfind := mem_find?_key_self _ c h1 hcol
    obtain ⟨hm, _, hmax⟩ := h2 c.key c hfind
    exact ⟨hm, fun c2 hc2 hkey => hmax c2 hc2 hkey⟩
  · intro k hex
    obtain ⟨c0, hc0, hc0k⟩ := hex
    cases hfind : (collapseNewest db.tableCfgsLog).find? (fun x => x.key = k) with
    | none => exact absurd hc0k (h3 k hfind c0 hc0)
    | some e =>
        obtain ⟨hm, hek, _⟩ := h2 k e hfind
        refine ⟨e, ⟨?_, hek⟩, ?_⟩
        · rw [IoTools.tableCfgs]
          exact mem_sortLe.mpr (List.mem_of_find?_eq_some hfind)
        · rintro c' ⟨hc'mem, hc'k⟩
          have hc'col : c' ∈ collapseNewest db.tableCfgsLog := by
            rw [IoTools.tableCfgs] at hc'mem
            exact mem_sortLe.mp hc'mem
          have hself := mem_find?_key_self _ c' h1 hc'col
          rw [hc'k] at hself
          rw [hself] at hfind
          injection hfind

theorem jsMapSet_inv (m : List (Row × Row)) (k v : Row)
    (hm : ∀ p ∈ m, p.1 = rowHash p.2) (hkv : k = rowHash v) :
    ∀ p ∈ jsMapSet m k v, p.1 = rowHash p.2 := by
  induction m with
  | nil =>
      intro p hp
      rw [jsMapSet] at hp
      rw [List.mem_singleton] at hp
      subst hp
      exact hkv
  | cons q m ih =>
      intro p hp
      obtain ⟨k0, v0⟩ := q
      rw [jsMapSet] at hp
      by_cases hq : k0 = k
      · rw [if_pos hq] at hp
        rcases List.mem_cons.mp hp with rfl | hp'
        · rw [hq]
          exact hkv
        · exact hm _ (List.mem_cons_of_mem _ hp')
      · rw [if_neg hq] at hp
        rcases List.mem_cons.mp hp with rfl | hp'
        · exact hm _ (List.mem_cons_self _ _)
        · exact ih (fun p hp => hm p (List.mem_cons_of_mem _ hp)) p hp'

theorem jsMapSet_keys (m : List (Row × Row)) (k v : Row) (h : Row) :
    (∃ p ∈ jsMapSet m k v, p.1 = h) ↔ (∃ p ∈ m, p.1 = h) ∨ k = h := by
  induction m with
  | nil =>
      rw [jsMapSet]
      simp
  | cons q m ih =>
      obtain ⟨k0, v0⟩ := q
      rw [jsMapSet]
      by_cases hq : k0 = k
      · rw [if_pos hq]
        subst hq
        constructor
        · rintro ⟨p, hp, hph⟩
          rcases List.mem_cons.mp hp with rfl | hp'
          · exact Or.inr hph
          · exact Or.inl ⟨p, List.mem_cons_of_mem _ hp', hph⟩
        · rintro (⟨p, hp, hph⟩ | hk)
          · rcases List.mem_cons.mp hp with rfl | hp'
            · exact ⟨(k0, v), List.mem_cons_self _ _, hph⟩
            · exact ⟨p, List.mem_cons_of_mem _ hp', hph⟩
          · exact ⟨(k0, v), List.mem_cons_self _ _, hk⟩
      · rw [if_neg hq]
        constructor
        · rintro ⟨p, hp, hph⟩
          rcases List.mem_cons.mp hp with rfl | hp'
          · exact Or.inl ⟨(k0, v0), List.mem_cons_self _ _, hph⟩
          · rcases ih.mp ⟨p, hp', hph⟩ with ⟨p2, hp2, hp2h⟩ | hk
            · exact Or.inl ⟨p2, List.mem_cons_of_mem _ hp2, hp2h⟩
            · exact Or.inr hk
        · rintro (⟨p, hp, hph⟩ | hk)
          · rcases List.mem_cons.mp hp with rfl | hp'
            · exact ⟨(k0, v0), List.mem_cons_self _ _, hph⟩
            · obtain ⟨p2, hp2, hp2h⟩ := ih.mpr (Or.inl ⟨p, hp', hph⟩)
              exact ⟨p2, List.mem_cons_of_mem _ hp2, hp2h⟩
          · obtain ⟨p2, hp2, hp2h⟩ := ih.mpr (Or.inr hk)
            exact ⟨p2, List.mem_cons_of_mem _ hp2, hp2h⟩

theorem jsFold_rows (rows : List Row) (m : List (Row × Row))
    (hm : ∀ p ∈ m, p.1 = rowHash p.2) :
    (∀ p ∈ rows.foldl (fun m2 r => jsMapSet m2 (rowHash r) r) m,
        p.1 = rowHash p.2)
    ∧ ∀ h, (∃ p ∈ rows.foldl (fun m2 r => jsMapSet m2 (rowHash r) r) m,
          p.1 = h)
        ↔ (∃ p ∈ m, p.1 = h) ∨ ∃ r ∈ rows, rowHash r = h := by
  induction rows generalizing m with
  | nil =>
      refine ⟨hm, ?_⟩
      intro h
      simp
  | cons r rows ih =>
      rw [List.foldl_cons]
      have h1 := jsMapSet_inv m (rowHash r) r hm rfl
      obtain ⟨ha, hb⟩ := ih (jsMapSet m (rowHash r) r) h1
      refine ⟨ha, ?_⟩
      intro h
      rw [hb h, jsMapSet_keys]
      constructor
      · rintro ((hm' | hk) | ⟨r', hr', hh⟩)
        · exact Or.inl hm'
        · exact Or.inr ⟨r, List.mem_cons_self _ _, hk⟩
        · exact Or.inr ⟨r', List.mem_cons_of_mem _ hr', hh⟩
      · rintro (hm' | ⟨r', hr', hh⟩)
        · exact Or.inl (Or.inl hm')
        · rcases List.mem_cons.mp hr' with rfl | hr''
          · exact Or.inl (Or.inr hh)
          · exact Or.inr ⟨r', hr'', hh⟩

theorem cascade_fold_hash (l : List (Nat × IoMultiIo)) (table : String)
    (w : List (String × Val)) (acc : CascadeAcc)
    (hm : ∀ p ∈ acc.rows, p.1 = rowHash p.2) :
    (∀ p ∈ (l.foldl (fun a q => cascadeStep table w a q.2) acc).rows,
        p.1 = rowHash p.2)
    ∧ ∀ h,
      (∃ p ∈ (l.foldl (fun a q => cascadeStep table w a q.2) acc).rows,
          p.1 = h)
        ↔ (∃ p ∈ acc.rows, p.1 = h)
          ∨ ∃ c ∈ l, ∃ t, IoMem.readRows c.2.io table w = .ok t
              ∧ ∃ r ∈ t, rowHash r = h := by
  induction l generalizing acc with
  | nil =>
      refine ⟨hm, ?_⟩
      intro h
      simp
  | cons c l ih =>
      rw [List.foldl_cons]
      cases hread : IoMem.readRows c.2.io table w with
      | error e =>
          have hstep : cascadeStep table w acc c.2
              = { acc with errors := acc.errors ++ [e] } := by
            rw [cascadeStep, hread]
          rw [hstep]
          obtain ⟨ha, hb⟩ := ih { acc with errors := acc.errors ++ [e] } hm
          refine ⟨ha, ?_⟩
          intro h
          rw [hb h]
          constructor
          · rintro (hmm | ⟨c', hc', ht⟩)
            · exact Or.inl hmm
            · exact Or.inr ⟨c', List.mem_cons_of_mem _ hc', ht⟩
          · rintro (hmm | ⟨c', hc', t, hok, hr⟩)
            · exact Or.inl hmm
            · rcases List.mem_cons.mp hc' with rfl | hc''
              · rw [hread] at hok; cases hok
              · exact Or.inr ⟨c', hc'', t, hok, hr⟩
      | ok t =>
          have hstep : cascadeStep table w acc c.2
              = { tableExistsAny := true,
                  rows := t.foldl (fun m2 r => jsMapSet m2 (rowHash r) r) acc.rows,
                  errors := acc.errors } := by
            rw [cascadeStep, hread]
          rw [hstep]
          obtain ⟨hinv2, hkeys2⟩ := jsFold_rows t acc.rows hm
          obtain ⟨ha, hb⟩ := ih
            { tableExistsAny := true,
              rows := t.foldl (fun m2 r => jsMapSet m2 (rowHash r) r) acc.rows,
              errors := acc.errors } hinv2
          refine ⟨ha, ?_⟩
          intro h
          rw [hb h, hkeys2 h]
          constructor
          · rintro ((hmm | ⟨r, hr, hh⟩) | ⟨c', hc', ht⟩)
            · exact Or.inl hmm
            · exact Or.inr ⟨c, List.mem_cons_self _ _, t, hread, r, hr, hh⟩
            · exact Or.inr ⟨c', List.mem_cons_of_mem _ hc', ht⟩
          · rintro (hmm | ⟨c', hc', t', hok, r, hr, hh⟩)
            · exact Or.inl (Or.inl hmm)
            · rcases List.mem_cons.mp hc' with rfl | hc''
              · rw [hread] at hok
                injection hok with ht'
                subst ht'
                exact Or.inl (Or.inr ⟨r, hr, hh⟩)
              · exact Or.inr ⟨c', hc'', t', hok, r, hr, hh⟩

/-- C1: cascade completeness of the aggregator's `readRows`.  (General part)
Whenever the call succeeds, the returned rows are, by content hash, exactly
the union of the matching rows of every readable child — the loop visits
every readable child, also after a child returned a table with zero
matching rows.  (Concrete part) With a higher-priority child holding table
`t` with zero rows matching `a = "x"` and a lower-priority child holding
one matching row, the call returns the lower-priority child's row. -/
theorem ioMulti_readRows_cascade_union :
    (∀ (ios : List IoMultiIo) (table : String) (w : List (String × Val))
        (res : List Row × List IoMultiIo),
      IoMulti.readRows ios table w = .ok res →
      ∀ h : Row,
        ((∃ v ∈ res.1, rowHash v = h) ↔
          ∃ c ∈ readables ios, ∃ t,
            IoMem.readRows c.2.io table w = .ok t ∧ ∃ r ∈ t, rowHash r = h))
    ∧ IoMulti.readRows [c1ChildA, c1ChildB] "t" [("a", Val.vStr "x")]
        = .ok ([exRowAx], [c1ChildA, c1ChildB]) := by
  constructor
  · intro ios table w res hok h
    have hspec : IoMulti.readRows ios table w
        = if readables ios = [] then .error .noReadableIo
          else if ¬ (cascade ios table w).tableExistsAny then
            .error (pickCascadeError table (cascade ios table w).errors)
          else .ok ((cascade ios table w).rows.map (·.2),
            writeBack ios [(table, (cascade ios table w).rows.map (·.2))]) := rfl
    rw [hspec] at hok
    by_cases hemp : readables ios = []
    · rw [if_pos hemp] at hok; cases hok
    · rw [if_neg hemp] at hok
      by_cases hflag : (cascade ios table w).tableExistsAny
      · rw [if_neg (not_not_intro hflag)] at hok
        injection hok with hres
        subst hres
        obtain ⟨hinv, hiff⟩ := cascade_fold_hash (readables ios) table w
          { tableExistsAny := false, rows := [], errors := [] }
          (fun p hp => by cases hp)
        have hC : cascade ios table w
            = (readables ios).foldl (fun a q => cascadeStep table w a q.2)
                { tableExistsAny := false, rows := [], errors := [] } := rfl
        constructor
        · rintro ⟨v, hv, hvh⟩
          obtain ⟨p, hp, hpv⟩ := List.mem_map.mp hv
          have hph : p.1 = h := by
            rw [hinv p (by rw [← hC]; exact hp), hpv, hvh]
          rcases (hiff h).mp ⟨p, by rw [hC] at hp; exact hp, hph⟩ with
            hcontra | hfound
          · obtain ⟨p2, hp2, _⟩ := hcontra
            cases hp2
          · exact hfound
        · intro hfound
          obtain ⟨p, hp, hph⟩ := (hiff h).mpr (Or.inr hfound)
          refine ⟨p.2, List.mem_map_of_mem _ (by rw [hC]; exact hp), ?_⟩
          rw [← hinv p hp, hph]
      · rw [if_pos hflag] at hok; cases hok
  · decide

/-- Witness for C1 at the two-tier scenario: the row of the lower-priority
child is contained, by hash, in the merged result. -/
theorem ioMulti_readRows_cascade_union_witness :
    ∃ v ∈ ([exRowAx] : List Row), rowHash v = rowHash exRowAx :=
  (ioMulti_readRows_cascade_union.1 [c1ChildA, c1ChildB] "t"
      [("a", Val.vStr "x")] ([exRowAx], [c1ChildA, c1ChildB])
      (by decide) (rowHash exRowAx)).mpr
    ⟨(1, c1ChildB), by decide, [exRowAx], by decide,
      exRowAx, List.mem_cons_self _ _, rfl⟩

theorem insertLe_map_comm {α : Type} (le : α → α → Bool) (g : α → α)
    (hg : ∀ a b, le (g a) (g b) = le a b) (x : α) (l : List α) :
    insertLe le (g x) (l.map g) = (insertLe le x l).map g := by
  induction l with
  | nil => rfl
  | cons y ys ih =>
      show (if le (g x) (g y) = true then g x :: g y :: ys.map g
            else g y :: insertLe le (g x) (ys.map g))
          = (if le x y = true then x :: y :: ys else y :: insertLe le x ys).map g
      rw [hg]
      by_cases h : le x y = true
      · rw [if_pos h, if_pos h]; rfl
      · rw [if_neg h, if_neg h, List.map_cons, ih]

theorem sortLe_map_comm {α : Type} (le : α → α → Bool) (g : α → α)
    (hg : ∀ a b, le (g a) (g b) = le a b) (l : List α) :
    sortLe le (l.map g) = (sortLe le l).map g := by
  induction l with
  | nil => rfl
  | cons a l ih =>
      show insertLe le (g a) (sortLe le (l.map g))
          = (insertLe le a (sortLe le l)).map g
      rw [ih, insertLe_map_comm le g hg]

theorem enumFrom_map_disable (n : Nat) (l : List IoMultiIo) :
    (l.map disableWrite).enumFrom n
      = (l.enumFrom n).map (fun p => (p.1, disableWrite p.2)) := by
  induction l generalizing n with
  | nil => rfl
  | cons a l ih =>
      show (n, disableWrite a) :: (l.map disableWrite).enumFrom (n + 1)
          = (n, disableWrite a)
              :: (l.enumFrom (n + 1)).map (fun p => (p.1, disableWrite p.2))
      rw [ih]

theorem enum_map_disable (l : List IoMultiIo) :
    (l.map disableWrite).enum = l.enum.map (fun p => (p.1, disableWrite p.2)) :=
  enumFrom_map_disable 0 l

theorem filter_read_map_disable (l : List (Nat × IoMultiIo)) :
    (l.map (fun p => (p.1, disableWrite p.2))).filter (fun p => p.2.read)
      = (l.filter (fun p => p.2.read)).map (fun p => (p.1, disableWrite p.2)) := by
  induction l with
  | nil => rfl
  | cons a l ih =>
      rw [List.map_cons, List.filter_cons, List.filter_cons]
      by_cases h : a.2.read = true
      · rw [if_pos (show ((a.1, disableWrite a.2) : Nat × IoMultiIo).2.read
              = true from h), if_pos h, List.map_cons, ih]
      · rw [if_neg (show ¬ ((a.1, disableWrite a.2) : Nat × IoMultiIo).2.read
              = true from h), if_neg h, ih]

theorem readables_map_disableWrite (ios : List IoMultiIo) :
    readables (ios.map disableWrite)
      = (readables ios).map (fun p => (p.1, disableWrite p.2)) := by
  show sortLe ioLe (((ios.map disableWrite).enum).filter (fun p => p.2.read))
      = (sortLe ioLe ((ios.enum).filter (fun p => p.2.read))).map
          (fun p => (p.1, disableWrite p.2))
  rw [enum_map_disable, filter_read_map_disable,
    sortLe_map_comm ioLe (fun p => (p.1, disableWrite p.2)) (fun a b => rfl)]

theorem cascade_map_disableWrite (ios : List IoMultiIo) (table : String)
    (w : List (String × Val)) :
    cascade (ios.map disableWrite) table w = cascade ios table w := by
  show (readables (ios.map disableWrite)).foldl
      (fun acc p => cascadeStep table w acc p.2)
      { tableExistsAny := false, rows := [], errors := [] }
    = (readables ios).foldl (fun acc p => cascadeStep table w acc p.2)
      { tableExistsAny := false, rows := [], errors := [] }
  rw [readables_map_disableWrite, List.foldl_map]
  rfl

theorem ioMulti_readRows_map_disableWrite (ios : List IoMultiIo)
    (table : String) (w : List (String × Val)) :
    Except.map Prod.fst (IoMulti.readRows (ios.map disableWrite) table w)
      = Except.map Prod.fst (IoMulti.readRows ios table w) := by
  have hspecL : IoMulti.readRows (ios.map disableWrite) table w
      = if readables (ios.map disableWrite) = [] then .error .noReadableIo
        else if ¬ (cascade (ios.map disableWrite) table w).tableExistsAny then
          .error (pickCascadeError table
            (cascade (ios.map disableWrite) table w).errors)
        else .ok ((cascade (ios.map disableWrite) table w).rows.map (·.2),
          writeBack (ios.map disableWrite)
            [(table,
              (cascade (ios.map disableWrite) table w).rows.map (·.2))]) := rfl
  have hspecR : IoMulti.readRows ios table w
      = if readables ios = [] then .error .noReadableIo
        else if ¬ (cascade ios table w).tableExistsAny then
          .error (pickCascadeError table (cascade ios table w).errors)
        else .ok ((cascade ios table w).rows.map (·.2),
          writeBack ios [(table, (cascade ios table w).rows.map (·.2))]) := rfl
  rw [hspecL, hspecR, readables_map_disableWrite, cascade_map_disableWrite]
  by_cases hemp : readables ios = []
  · rw [hemp]; rfl
  · rw [if_neg (fun hcon => hemp (List.map_eq_nil_iff.mp hcon)), if_neg hemp]
    by_cases hflag : (cascade ios table w).tableExistsAny
    · rw [if_neg (not_not_intro hflag), if_neg (not_not_intro hflag)]
      rfl
    · rw [if_pos hflag, if_pos hflag]

/-- C2: the hot-swap write-back never influences the read result, every
successful read writes the merged rows back through the write-back loop
over the writable children, and in the two-tier scenario the first read
back-fills the cache and swallows the broken writable's failure.  (First
conjunct) The returned value — success or failure, and the rows on success
— is the same whether the children can be written or not, so a write-back
failure can never fail the read.  (Second conjunct) A successful read
returns exactly the merged rows together with the write-back of those rows
to every writable child.  (Third conjunct) In the concrete scenario, where
only the remote child holds the `items` row, the first `readRows` returns
that row, leaves the cache containing it, and leaves the broken writable
and the remote unchanged. -/
theorem ioMulti_readRows_writeback_swallowed :
    (∀ (ios : List IoMultiIo) (table : String) (w : List (String × Val)),
        Except.map Prod.fst (IoMulti.readRows (ios.map disableWrite) table w)
          = Except.map Prod.fst (IoMulti.readRows ios table w))
    ∧ (∀ (ios : List IoMultiIo) (table : String) (w : List (String × Val))
          (res : List Row × List IoMultiIo),
        IoMulti.readRows ios table w = .ok res →
        res.2 = writeBack ios [(table, res.1)])
    ∧ IoMulti.readRows c2Ios "items" [] = .ok ([itemsRow], c2After) := by
  refine ⟨ioMulti_readRows_map_disableWrite, ?_, by decide⟩
  intro ios table w res hok
  have hspec : IoMulti.readRows ios table w
      = if readables ios = [] then .error .noReadableIo
        else if ¬ (cascade ios table w).tableExistsAny then
          .error (pickCascadeError table (cascade ios table w).errors)
        else .ok ((cascade ios table w).rows.map (·.2),
          writeBack ios [(table, (cascade ios table w).rows.map (·.2))]) := rfl
  rw [hspec] at hok
  by_cases hemp : readables ios = []
  · rw [if_pos hemp] at hok; cases hok
  · rw [if_neg hemp] at hok
    by_cases hflag : (cascade ios table w).tableExistsAny
    · rw [if_neg (not_not_intro hflag)] at hok
      injection hok with hres
      subst hres
      rfl
    · rw [if_pos hflag] at hok; cases hok

/-- Witness for C2 at the two-tier scenario: the child states returned by
the first read are exactly the write-back of the merged row to the
writable children. -/
theorem ioMulti_readRows_writeback_swallowed_witness :
    c2After = writeBack c2Ios [("items", [itemsRow])] :=
  ioMulti_readRows_writeback_swallowed.2.1 c2Ios "items" []
    ([itemsRow], c2After) (by decide)

theorem firstSeen_subset (n : Nat) :
    ∀ (l : List TableCfg), l.length ≤ n → ∀ c ∈ firstSeenPerKey l, c ∈ l := by
  induction n with
  | zero =>
      intro l hl c hc
      have h0 : l = [] := List.length_eq_zero.mp (Nat.le_zero.mp hl)
      subst h0
      rw [firstSeenPerKey] at hc
      cases hc
  | succ n ih =>
      intro l hl c hc
      cases l with
      | nil =>
          rw [firstSeenPerKey] at hc
          cases hc
      | cons c0 rest =>
          rw [firstSeenPerKey] at hc
          rcases List.mem_cons.mp hc with rfl | hc'
          · exact List.mem_cons_self _ _
          · have hlen : (rest.filter (fun e => e.key ≠ c0.key)).length ≤ n :=
              Nat.le_trans (List.length_filter_le _ _)
                (Nat.le_of_succ_le_succ hl)
            exact List.mem_cons_of_mem _
              (List.mem_of_mem_filter (ih _ hlen c hc'))

theorem find?_filter_ne_key (l : List TableCfg) (k k0 : String)
    (hk : ¬ k = k0) :
    (l.filter (fun e => e.key ≠ k0)).find? (fun e => e.key = k)
      = l.find? (fun e => e.key = k) := by
  induction l with
  | nil => rfl
  | cons c rest ih =>
      rw [List.filter_cons]
      by_cases hc : c.key = k0
      · rw [if_neg (by simp [hc]), ih,
          List.find?_cons_of_neg _ (by
            simp [hc]
            exact fun h => hk h.symm)]
      · rw [if_pos (by simp [hc])]
        by_cases hck : c.key = k
        · rw [List.find?_cons_of_pos _ (by simp [hck]),
            List.find?_cons_of_pos _ (by simp [hck])]
        · rw [List.find?_cons_of_neg _ (by simp [hck]),
            List.find?_cons_of_neg _ (by simp [hck]), ih]

theorem firstSeen_filter_some (n : Nat) :
    ∀ (l : List TableCfg), l.length ≤ n → ∀ (k : String) (c : TableCfg),
    l.find? (fun e => e.key = k) = some c →
    (firstSeenPerKey l).filter (fun e => e.key = k) = [c] := by
  induction n with
  | zero =>
      intro l hl k c hf
      have h0 : l = [] := List.length_eq_zero.mp (Nat.le_zero.mp hl)
      subst h0
      cases hf
  | succ n ih =>
      intro l hl k c hf
      cases l with
      | nil => cases hf
      | cons c0 rest =>
          rw [firstSeenPerKey, List.filter_cons]
          by_cases hk : c0.key = k
          · rw [List.find?_cons_of_pos _ (by simp [hk])] at hf
            injection hf with hf0
            rw [if_pos (by simp [hk])]
            have hnil : (firstSeenPerKey
                (rest.filter (fun e => e.key ≠ c0.key))).filter
                  (fun e => e.key = k) = [] := by
              rw [List.filter_eq_nil_iff]
              intro a ha
              have hmem := firstSeen_subset
                (rest.filter (fun e => e.key ≠ c0.key)).length _
                (Nat.le_refl _) a ha
              have hane := List.of_mem_filter hmem
              simp only [ne_eq, decide_eq_true_eq] at hane
              simp only [decide_eq_true_eq]
              rw [← hk]
              exact hane
            rw [hnil, hf0]
          · rw [List.find?_cons_of_neg _ (by simp [hk])] at hf
            rw [if_neg (by simp [hk])]
            have hlen : (rest.filter (fun e => e.key ≠ c0.key)).length ≤ n :=
              Nat.le_trans (List.length_filter_le _ _)
                (Nat.le_of_succ_le_succ hl)
            have hf' : (rest.filter (fun e => e.key ≠ c0.key)).find?
                (fun e => e.key = k) = some c := by
              rw [find?_filter_ne_key rest k c0.key (fun h => hk h.symm)]
              exact hf
            exact ih _ hlen k c hf'

theorem ioMem_tableCfgs_eq (db : Db) :
    IoMem.tableCfgs db = (firstSeenPerKey db.tableCfgsLog.reverse).reverse := by
  rw [IoMem.tableCfgs, dedupByKeyFirst_eq_firstSeen]
  simp

/-- C8 counterexample: on a config log whose later `t0` entry has fewer
columns than the earlier one, the cited `IoMem.tableCfgs` implementation
(conformance.ts, second document, lines 123-143) returns the LAST log
entry for the key — it performs no column-count comparison — so the
returned `t0` entry does not have the greatest column count among the
log's `t0` entries, refuting the claimed selection rule for this cited
implementation. -/
theorem ioMem_tableCfgs_keeps_last_not_greatest :
    IoMem.tableCfgs c8MemDb = [c9CfgV1]
    ∧ c9CfgV2 ∈ c8MemDb.tableCfgsLog
    ∧ c9CfgV2.key = c9CfgV1.key
    ∧ ¬ c9CfgV2.columns.length ≤ c9CfgV1.columns.length := by
  decide

/-- C8 amended: for every state of the config log, both cited
implementations return exactly one entry per logged table key, but they
select differently.  `IoTools.tableCfgs` returns, for each key, a logged
config with the greatest column count among the log's entries for that
key; `IoMem.tableCfgs` returns, for each key, the newest (last-logged)
entry for that key, which has the greatest column count only when the
key's column counts grow monotonically along the log. -/
theorem tableCfgs_per_key_selection :
    (∀ db : Db,
      (∀ c ∈ IoTools.tableCfgs db, c ∈ db.tableCfgsLog
          ∧ ∀ c2 ∈ db.tableCfgsLog, c2.key = c.key →
              c2.columns.length ≤ c.columns.length)
      ∧ ∀ k, (∃ c ∈ db.tableCfgsLog, c.key = k) →
          ∃! c, c ∈ IoTools.tableCfgs db ∧ c.key = k)
    ∧ ∀ db : Db,
      (∀ c ∈ IoMem.tableCfgs db, c ∈ db.tableCfgsLog)
      ∧ ∀ k c, db.tableCfgsLog.reverse.find? (fun e => e.key = k) = some c →
          (IoMem.tableCfgs db).filter (fun e => e.key = k) = [c] := by
  refine ⟨ioTools_tableCfgs_greatest, ?_⟩
  intro db
  constructor
  · intro c hc
    rw [ioMem_tableCfgs_eq] at hc
    rw [List.mem_reverse] at hc
    have hmem := firstSeen_subset db.tableCfgsLog.reverse.length _
      (Nat.le_refl _) c hc
    rw [List.mem_reverse] at hmem
    exact hmem
  · intro k c hf
    rw [ioMem_tableCfgs_eq, List.filter_reverse,
      firstSeen_filter_some db.tableCfgsLog.reverse.length _
        (Nat.le_refl _) k c hf, List.reverse_singleton]

/-- Witness for the amended C8 theorem: on the monotonic log the unique
`t0` entry of `IoTools.tableCfgs` exists, and on the non-monotonic log
`IoMem.tableCfgs` keeps exactly the last-logged `t0` entry. -/
theorem tableCfgs_per_key_selection_witness :
    (∃! c, c ∈ IoTools.tableCfgs c8Db ∧ c.key = "t0")
    ∧ (IoMem.tableCfgs c8MemDb).filter (fun e => e.key = "t0") = [c9CfgV1] :=
  ⟨(tableCfgs_per_key_selection.1 c8Db).2 "t0" ⟨c9CfgV1, by decide, by decide⟩,
   (tableCfgs_per_key_selection.2 c8MemDb).2 "t0" c9CfgV1 (by decide)⟩
